import Mathlib

/-!
Verification development for the QGISTool photo-viewer plugin.

The Python sources are shallowly embedded: pure string/row manipulations
become Lean functions on `String` / `List Char` / `ℚ`; the host's layer
editing API is modelled as explicit state passing; decimal numerals are
modelled exactly as rationals (IEEE rounding, which can only merge values
agreeing to more than double precision, is not modelled); Python
exceptions become `Except` / `Option` results.
-/

namespace QGISTool

/-- Whitespace characters stripped by Python str.strip (ASCII range). -/
def isWsChar (c : Char) : Bool :=
  c = ' ' || c = '\t' || c = '\n' || c = '\r' || c = '\x0b' || c = '\x0c'

/-- Model of Python str.strip on a list of characters. -/
def pyStripL (l : List Char) : List Char :=
  ((l.dropWhile isWsChar).reverse.dropWhile isWsChar).reverse

/-- Model of Python str.strip on strings. -/
def pyStrip (s : String) : String := String.mk (pyStripL s.toList)

/-- Model of Python str.lower (ASCII case folding). -/
def pyLower (s : String) : String := String.mk (s.toList.map Char.toLower)

/-- Model of Python s.strip().lower(), used throughout viewer_logic.py. -/
def stripLower (s : String) : String := pyLower (pyStrip s)

/-- Decimal value of a list of digit characters (Python int of a digit string). -/
def digitsToNat (l : List Char) : Nat :=
  l.foldl (fun acc c => 10 * acc + (c.toNat - 48)) 0

/-- The character for a single decimal digit. -/
def digitCh (n : Nat) : Char := Char.ofNat (48 + n)

/-- Fuel-driven decimal printer (model of Python str on a non-negative int). -/
def natDecimalAux : Nat → Nat → List Char
  | 0, _ => []
  | fuel + 1, n =>
    if n < 10 then [digitCh n]
    else natDecimalAux fuel (n / 10) ++ [digitCh (n % 10)]

/-- Decimal digits of a natural number (model of Python str on an int). -/
def natDecimal (n : Nat) : List Char := natDecimalAux (n + 1) n

/-- Model of Python str.split(sep) on character lists: keeps empty pieces. -/
def splitOnChar (sep : Char) : List Char → List (List Char)
  | [] => [[]]
  | c :: rest =>
    if c = sep then [] :: splitOnChar sep rest
    else
      match splitOnChar sep rest with
      | [] => [[c]]
      | h :: t => (c :: h) :: t

/-- Model of Python ", ".join on character lists. -/
def joinCommaSpace : List (List Char) → List Char
  | [] => []
  | [t] => t
  | t :: rest => t ++ ',' :: ' ' :: joinCommaSpace rest

/- ----------------------------------------------------------------
utils.py: ENCODINGS and open_with_fallback (claim C8).
`attempt enc` abstracts `open(path, encoding=enc); f.read(1)` for the
fixed path: it either yields an open handle or the raised error.
---------------------------------------------------------------- -/

/-- The fallback list of utils.ENCODINGS, in source order. -/
def ENCODINGS : List String :=
  ["utf-8-sig", "utf-16", "utf-16-le", "utf-16-be", "cp932", "utf-8"]

/-- Boolean success test for an Except value. -/
def exceptOk {E A : Type} : Except E A → Bool
  | Except.ok _ => true
  | Except.error _ => false

/-- Loop of utils.open_with_fallback: try each encoding, remembering the
last error; raise the remembered error when the list is exhausted. -/
def openFallbackGo {H : Type} (attempt : String → Except String H) :
    List String → Option String → Except String (H × String)
  | [], last => Except.error (last.getD "Unknown encoding")
  | enc :: rest, _ =>
    match attempt enc with
    | Except.ok h => Except.ok (h, enc)
    | Except.error e => openFallbackGo attempt rest (some e)

/-- Model of utils.open_with_fallback. -/
def open_with_fallback {H : Type} (attempt : String → Except String H) :
    Except String (H × String) :=
  openFallbackGo attempt ENCODINGS none

/- ----------------------------------------------------------------
utils.EditContext and fields.edit (claim C6).
A vector layer is modelled by its committed state, its edit buffer and
an editing flag; the with-block body is a function on the buffer that
may raise (`Except.error`).
---------------------------------------------------------------- -/

/-- State of a QgsVectorLayer relevant to edit transactions. -/
structure VLayer (σ : Type) where
  committed : σ
  buffer : σ
  editing : Bool
deriving DecidableEq

/-- Transaction operations invoked on a layer, recorded as a trace. -/
inductive EditOp
  | start
  | commit
  | rollback
deriving DecidableEq

/-- layer.startEditing(): begin an edit session when none is active. -/
def startEditingL {σ : Type} (l : VLayer σ) : VLayer σ :=
  if l.editing then l else ⟨l.committed, l.committed, true⟩

/-- layer.commitChanges(): write the buffer to the committed state. -/
def commitChangesL {σ : Type} (l : VLayer σ) : VLayer σ :=
  ⟨l.buffer, l.buffer, false⟩

/-- layer.rollBack(): discard the buffer, keep the committed state. -/
def rollBackL {σ : Type} (l : VLayer σ) : VLayer σ :=
  ⟨l.committed, l.committed, false⟩

/-- Model of `with EditContext(layer): body` from utils.py: __enter__
starts editing when the layer is not editable; __exit__ commits when the
body finished normally and rolls back when it raised, re-raising the
body's exception (returned as `some e`). -/
def withEditContext {σ ε : Type} (l : VLayer σ) (body : σ → Except ε σ) :
    VLayer σ × Option ε × List EditOp :=
  let entered : VLayer σ × List EditOp :=
    if l.editing then (l, []) else (startEditingL l, [EditOp.start])
  match body entered.1.buffer with
  | Except.ok b =>
    (commitChangesL ⟨entered.1.committed, b, entered.1.editing⟩, none,
      entered.2 ++ [EditOp.commit])
  | Except.error e =>
    (rollBackL entered.1, some e, entered.2 ++ [EditOp.rollback])

/-- Model of the `edit` context manager from fields.py: unconditional
startEditing, commit on normal exit, rollback and re-raise on exception. -/
def fieldsEdit {σ ε : Type} (l : VLayer σ) (body : σ → Except ε σ) :
    VLayer σ × Option ε × List EditOp :=
  let l1 := startEditingL l
  match body l1.buffer with
  | Except.ok b =>
    (commitChangesL ⟨l1.committed, b, l1.editing⟩, none,
      [EditOp.start, EditOp.commit])
  | Except.error e =>
    (rollBackL l1, some e, [EditOp.start, EditOp.rollback])

/- ----------------------------------------------------------------
viewer_logic.py add/delete mode toggling (claim C9).
`ok` abstracts whether _ensure_click_layer returned a usable layer.
---------------------------------------------------------------- -/

/-- The _add_mode/_del_mode flags of PhotoViewerController. -/
structure ModeState where
  addMode : Bool
  delMode : Bool
deriving DecidableEq

/-- Model of _disable_add_mode (flag part). -/
def disableAdd (s : ModeState) : ModeState := ⟨false, s.delMode⟩

/-- Model of _disable_del_mode (flag part). -/
def disableDel (s : ModeState) : ModeState := ⟨s.addMode, false⟩

/-- Model of _enable_add_mode: first disable delete mode when it is on,
then enable add mode only when the click layer is available. -/
def enableAdd (s : ModeState) (ok : Bool) : ModeState :=
  let s1 := if s.delMode then disableDel s else s
  if ok then ⟨true, s1.delMode⟩ else s1

/-- Model of _enable_del_mode. -/
def enableDel (s : ModeState) (ok : Bool) : ModeState :=
  let s1 := if s.addMode then disableAdd s else s
  if ok then ⟨s1.addMode, true⟩ else s1

/-- Model of _toggle_add_mode. -/
def toggleAdd (s : ModeState) (ok : Bool) : ModeState :=
  if s.addMode then disableAdd s else enableAdd s ok

/-- Model of _toggle_del_mode. -/
def toggleDel (s : ModeState) (ok : Bool) : ModeState :=
  if s.delMode then disableDel s else enableDel s ok

/-- A toggle event: which button was pressed and whether
_ensure_click_layer succeeded at that moment. -/
inductive ModeEv
  | tAdd (ok : Bool)
  | tDel (ok : Bool)

/-- One toggle step. -/
def stepMode (s : ModeState) : ModeEv → ModeState
  | ModeEv.tAdd ok => toggleAdd s ok
  | ModeEv.tDel ok => toggleDel s ok

/-- Run a sequence of toggle events. -/
def runModes (s : ModeState) (evs : List ModeEv) : ModeState :=
  evs.foldl stepMode s

/- ----------------------------------------------------------------
utils.detect_csv_dialect (claim C10).
`sniff` abstracts csv.Sniffer().sniff (stdlib, outside this repo): it
returns the sniffed delimiter or `none` when sniffing raises.  The
mutable class attribute csv.excel.delimiter — which the source assigns
through `d = _csv.excel; d.delimiter = ";"` — is the process state. -/

/-- Process-wide state of the csv module: the delimiter attribute of the
csv.excel dialect class. -/
structure CsvModuleState where
  excelDelimiter : Char
deriving DecidableEq

/-- Initial csv module state: csv.excel.delimiter is a comma. -/
def initCsvModuleState : CsvModuleState := ⟨','⟩

/-- Model of utils.detect_csv_dialect: returns the delimiter of the
returned dialect together with the csv module state after the call.
The semicolon fallback branch assigns to csv.excel.delimiter (the class
itself, not a copy), mutating the module state. -/
def detect_csv_dialect (sniff : String → Option Char) (st : CsvModuleState)
    (sample : String) : Char × CsvModuleState :=
  match sniff sample with
  | some d => (d, st)
  | none =>
    if sample.toList.contains '\t' then ('\t', st)
    else if sample.toList.contains ';' &&
        sample.toList.count ',' < sample.toList.count ';' then
      (';', ⟨';'⟩)
    else (st.excelDelimiter, st)

/- ----------------------------------------------------------------
utils.Row and the CSV-row index of viewer_logic.py (claims C1, C2, C7).
---------------------------------------------------------------- -/

/-- utils.Row: one CSV row of the photo list.  Coordinates are modelled
as rationals (exact decimal values); optional columns are `Option`. -/
structure Row where
  kp : String
  lat_kp : Option ℚ
  lon_kp : Option ℚ
  street : String
  front : String
  lat_front : Option ℚ
  lon_front : Option ℚ
  course_front : Option ℚ
  back : String
  lat_back : Option ℚ
  lon_back : Option ℚ
  course_back : Option ℚ
deriving DecidableEq, Inhabited

/-- The character filter of `re.sub(r'[^0-9.\-]+', '', kp_text)`. -/
def stripKpChars (s : String) : String :=
  String.mk (s.toList.filter (fun c => c.isDigit || c = '.' || c = '-'))

/-- Model of Python float() applied to a string made only of digits,
dots and minus signs: an optional leading minus, then digits with at
most one dot and at least one digit.  The value is the exact rational. -/
def pyFloatQ (s : String) : Option ℚ :=
  match s.toList with
  | [] => none
  | l =>
    let signed : Bool × List Char :=
      match l with
      | '-' :: r => (true, r)
      | _ => (false, l)
    let body :=
      match splitOnChar '.' signed.2 with
      | [ip] =>
        if ip ≠ [] ∧ ip.all (fun c => c.isDigit) then
          some ((digitsToNat ip : ℚ))
        else none
      | [ip, fp] =>
        if (ip ≠ [] ∨ fp ≠ []) ∧ ip.all (fun c => c.isDigit) ∧
            fp.all (fun c => c.isDigit) then
          some ((digitsToNat ip : ℚ) + (digitsToNat fp : ℚ) / 10 ^ fp.length)
        else none
      | _ => none
    body.map (fun q => if signed.1 then -q else q)

/-- The parsed numeric KP value of a row (claim-side helper shared with
the sort key): Python `float` of the stripped KP text. -/
def kpParsedQ (r : Row) : Option ℚ := pyFloatQ (stripKpChars r.kp)

/-- The `_kp_numeric` helper of _rebuild_index: `(0, float(s), '')` when
the stripped text parses, `(1, 0.0, kp_text)` otherwise. -/
def kpNumeric (kp : String) : ℕ ×ₗ (ℚ ×ₗ String) :=
  match pyFloatQ (stripKpChars kp) with
  | some q => toLex ((0 : ℕ), toLex (q, ""))
  | none => toLex ((1 : ℕ), toLex ((0 : ℚ), kp))

/-- Sort key of _rebuild_index: `(street_key, ord_key)` compared as a
Python tuple, i.e. lexicographically. -/
def SortKey : Type := String ×ₗ (ℕ ×ₗ (ℚ ×ₗ String))

instance : LinearOrder SortKey := Prod.Lex.linearOrder _ _

/-- Sort key of a row: street stripped and lowercased, then _kp_numeric
of the KP text. -/
def sortKey (r : Row) : SortKey := toLex (stripLower r.street, kpNumeric r.kp)

/-- Comparison used for the stable sort of `kp_order`: Python's
`sort(key=lambda t: (t[0], t[1]))` ignores the trailing row index. -/
def keyIdxLe (a b : SortKey × ℕ) : Prop := a.1 ≤ b.1

instance : DecidableRel keyIdxLe :=
  fun a b => inferInstanceAs (Decidable (a.1 ≤ b.1))

instance : IsTotal (SortKey × ℕ) keyIdxLe := ⟨fun a b => le_total a.1 b.1⟩

instance : IsTrans (SortKey × ℕ) keyIdxLe :=
  ⟨fun _ _ _ h1 h2 => le_trans h1 h2⟩

/-- Pair each list element with its position, starting at `n`. -/
def withIdx {α : Type} : Nat → List α → List (Nat × α)
  | _, [] => []
  | n, a :: l => (n, a) :: withIdx (n + 1) l

/-- The `_kp_order` list of _rebuild_index: row indices sorted stably
by `(street_key, ord_key)`. -/
def rebuildKpOrder (rows : List Row) : List ℕ :=
  (List.insertionSort keyIdxLe
      ((withIdx 0 rows).map (fun p => (sortKey p.2, p.1)))).map Prod.snd

/-- The ordering the spec describes for `_kp_order` (claim C1): rows are
compared primarily by trimmed lowercased street; within one street a row
whose stripped KP text parses as a number precedes one whose text does
not; two parsing rows compare by numeric value; two non-parsing rows
compare by their original KP text. -/
def specRowLe (r1 r2 : Row) : Prop :=
  stripLower r1.street < stripLower r2.street ∨
    (stripLower r1.street = stripLower r2.street ∧
      ((∃ q1 q2, kpParsedQ r1 = some q1 ∧ kpParsedQ r2 = some q2 ∧ q1 ≤ q2) ∨
       ((kpParsedQ r1).isSome ∧ kpParsedQ r2 = none) ∨
       (kpParsedQ r1 = none ∧ kpParsedQ r2 = none ∧ r1.kp ≤ r2.kp)))

/- ----------------------------------------------------------------
The _idx_by_kp / _idx_by_pic maps and _jump (claim C7).
Python dicts are modelled as association lists with insert semantics.
---------------------------------------------------------------- -/

/-- Python `dict[k] = v` when the map is only extended for fresh keys
(`if key not in d`): the _idx_by_kp insertion of _rebuild_index. -/
def kpMapInsert (m : List (String × ℕ)) (key : String) (i : ℕ) :
    List (String × ℕ) :=
  if (List.lookup key m).isSome then m else m ++ [(key, i)]

/-- Python `dict[k] = v` with overwrite: the _idx_by_pic insertion. -/
def dictSet (m : List (String × ℕ)) (key : String) (i : ℕ) :
    List (String × ℕ) :=
  if (List.lookup key m).isSome then
    m.map (fun p => if p.1 = key then (p.1, i) else p)
  else m ++ [(key, i)]

/-- The _idx_by_kp loop: for each row in order, when `r.kp` is truthy,
record the first index seen for its stripped lowercased KP text. -/
def idxByKpAux (m : List (String × ℕ)) : List (ℕ × Row) → List (String × ℕ)
  | [] => m
  | (i, r) :: rest =>
    idxByKpAux (if r.kp ≠ "" then kpMapInsert m (stripLower r.kp) i else m) rest

/-- The _idx_by_kp map of _rebuild_index. -/
def idxByKp (rows : List Row) : List (String × ℕ) :=
  idxByKpAux [] (withIdx 0 rows)

/-- The _idx_by_pic loop: for each row in order and each of (front, back),
when the stripped lowercased name is non-empty, overwrite its index. -/
def idxByPicAux (m : List (String × ℕ)) : List (ℕ × Row) → List (String × ℕ)
  | [] => m
  | (i, r) :: rest =>
    idxByPicAux
      (let k2 := stripLower r.back
       let m1 := let k1 := stripLower r.front
                 if k1 ≠ "" then dictSet m k1 i else m
       if k2 ≠ "" then dictSet m1 k2 i else m1) rest

/-- The _idx_by_pic map of _rebuild_index. -/
def idxByPic (rows : List Row) : List (String × ℕ) :=
  idxByPicAux [] (withIdx 0 rows)

/-- Does a row mention pic name `k` (stripped lowercased front or back)? -/
def picMatch (k : String) (r : Row) : Bool :=
  stripLower r.front == k || stripLower r.back == k

/-- Claim-side helper: the index of the LAST entry satisfying `p` in an
indexed list (later entries override earlier ones). -/
def lastIdxWhere {α : Type} (p : α → Bool) : List (ℕ × α) → Option ℕ
  | [] => none
  | q :: rest =>
    match lastIdxWhere p rest with
    | some j => some j
    | none => if p q.2 then some q.1 else none

/-- Result of _jump: navigate to an image, show only an info message, or
return silently. -/
inductive JumpResult
  | goTo (i : ℕ)
  | info
  | silent
deriving DecidableEq

/-- Model of PhotoViewerController._jump. -/
def jump (rows : List Row) (keyText : String) : JumpResult :=
  let key := stripLower keyText
  if key = "" then JumpResult.silent
  else
    match List.lookup key (idxByKp rows) with
    | some i => JumpResult.goTo i
    | none =>
      match List.lookup key (idxByPic rows) with
      | some i => JumpResult.goTo i
      | none => JumpResult.info

/-- The jump behaviour claim C7 describes: a known KP navigates to the
KP-map index, otherwise a known picture name navigates to the pic-map
index, otherwise only an info message is shown. -/
def jumpSpec (rows : List Row) (keyText : String) : JumpResult :=
  let key := stripLower keyText
  match List.lookup key (idxByKp rows) with
  | some i => JumpResult.goTo i
  | none =>
    match List.lookup key (idxByPic rows) with
    | some i => JumpResult.goTo i
    | none => JumpResult.info

/- ----------------------------------------------------------------
show_image (claim C2): which picture name is displayed on each side.
---------------------------------------------------------------- -/

/-- Model of Python list.index restricted to success/failure: the first
position of `cur` in the list, `none` when absent (ValueError). -/
def listIndex (cur : ℕ) : List ℕ → Option ℕ
  | [] => none
  | j :: rest => if j = cur then some 0 else (listIndex cur rest).map (· + 1)

/-- A sample row used by concrete instances. -/
def sampleRow : Row :=
  ⟨"KP1", none, none, "s", "A.jpg", none, none, none,
    "B.jpg", none, none, none⟩

/-- First truthy candidate of the `for pth, ... in cand` scan; `none`
means the empty placeholder label is shown. -/
def firstNonEmpty (cands : List String) : Option String :=
  cands.find? (fun s => s != "")

/-- `self.current_index = idx % len(self.images)` (Python modulo). -/
def currentIndex (n : ℕ) (idx : ℤ) : ℕ := (idx % (n : ℤ)).toNat

/-- The prev_row/next_row computation of show_image, including the
silent exception paths: an absent `_kp_order`, a current index missing
from it, or an out-of-range row index leave the affected values `none`. -/
def prevNextRows (images : List Row) (kpOrder : List ℕ) (cur : ℕ) :
    Option Row × Option Row :=
  if kpOrder = [] then (none, none)
  else
    match listIndex cur kpOrder with
    | none => (none, none)
    | some pos =>
      if 0 < pos ∧ images.length ≤ kpOrder.getD (pos - 1) 0 then (none, none)
      else
        let prev := if 0 < pos then
            some (images.getD (kpOrder.getD (pos - 1) 0) default) else none
        if pos < kpOrder.length - 1 ∧
            images.length ≤ kpOrder.getD (pos + 1) 0 then (prev, none)
        else
          (prev,
           if pos < kpOrder.length - 1 then
             some (images.getD (kpOrder.getD (pos + 1) 0) default) else none)

/-- The front (left) display choice of show_image. -/
def showFrontDisp (images : List Row) (kpOrder : List ℕ) (idx : ℤ) :
    Option String :=
  match images with
  | [] => none
  | _ :: _ =>
    let cur := currentIndex images.length idx
    let row := images.getD cur default
    let prevRow := (prevNextRows images kpOrder cur).1
    let cand :=
      if row.lat_kp.isSome && row.lon_kp.isSome then
        match prevRow with
        | some pR => if pR.street == row.street then [pR.front, pR.back]
                     else [row.front]
        | none => [row.front]
      else [row.front]
    firstNonEmpty cand

/-- The back (right) display choice of show_image. -/
def showBackDisp (images : List Row) (kpOrder : List ℕ) (idx : ℤ) :
    Option String :=
  match images with
  | [] => none
  | _ :: _ =>
    let cur := currentIndex images.length idx
    let row := images.getD cur default
    let nextRow := (prevNextRows images kpOrder cur).2
    let cand :=
      if row.lat_kp.isSome && row.lon_kp.isSome then
        match nextRow with
        | some nR => if nR.street == row.street then [nR.back, nR.front]
                     else [row.back]
        | none => [row.back]
      else [row.back]
    firstNonEmpty cand

/-- Claim-side previous row: the row at the _kp_order position directly
before the current index's position, when one exists. -/
def specPrevRow (images : List Row) (kpOrder : List ℕ) (cur : ℕ) :
    Option Row :=
  match listIndex cur kpOrder with
  | none => none
  | some pos =>
    if 0 < pos then some (images.getD (kpOrder.getD (pos - 1) 0) default)
    else none

/-- Claim-side next row: the row at the _kp_order position directly
after the current index's position, when one exists. -/
def specNextRow (images : List Row) (kpOrder : List ℕ) (cur : ℕ) :
    Option Row :=
  match listIndex cur kpOrder with
  | none => none
  | some pos =>
    if pos < kpOrder.length - 1 then
      some (images.getD (kpOrder.getD (pos + 1) 0) default)
    else none

/-- The front display rule claim C2 states: borrow from the previous
_kp_order row (front then back) exactly when lat_kp and lon_kp are both
present, a previous row exists, and its street equals the current one;
otherwise use the row's own front picture. -/
def specFrontDisp (images : List Row) (kpOrder : List ℕ) (idx : ℤ) :
    Option String :=
  match images with
  | [] => none
  | _ :: _ =>
    let cur := currentIndex images.length idx
    let row := images.getD cur default
    match specPrevRow images kpOrder cur with
    | some pR =>
      if row.lat_kp.isSome && row.lon_kp.isSome && (pR.street == row.street)
      then firstNonEmpty [pR.front, pR.back]
      else firstNonEmpty [row.front]
    | none => firstNonEmpty [row.front]

/-- The back display rule claim C2 states, symmetric to the front one:
borrow the next row's back, falling back to its front. -/
def specBackDisp (images : List Row) (kpOrder : List ℕ) (idx : ℤ) :
    Option String :=
  match images with
  | [] => none
  | _ :: _ =>
    let cur := currentIndex images.length idx
    let row := images.getD cur default
    match specNextRow images kpOrder cur with
    | some nR =>
      if row.lat_kp.isSome && row.lon_kp.isSome && (nR.street == row.street)
      then firstNonEmpty [nR.back, nR.front]
      else firstNonEmpty [row.back]
    | none => firstNonEmpty [row.back]

/- ----------------------------------------------------------------
maptools.AddPointTool (claim C3).
---------------------------------------------------------------- -/

/-- COORD_TOL of PhotoViewerController (1e-7, exact rational). -/
def COORD_TOL : ℚ := 1 / 10000000

/-- One attribute set returned by the attribute dialog, restricted to
the keys the subcat bookkeeping inspects.  `none` means the key is
absent from the Python dict. -/
structure AttrSet where
  subcat : Option String
  subCategory : Option String
deriving DecidableEq, Inhabited

/-- Python truthiness of `d.get(k)`: present and non-empty. -/
def truthyS : Option String → Bool
  | none => false
  | some s => s != ""

/-- AddPointTool._has_same_coord_feature: is some existing feature within
COORD_TOL of the clicked point in both coordinates? -/
def hasSameCoordFeature (pts : List (ℚ × ℚ)) (x y tol : ℚ) : Bool :=
  pts.any (fun p => decide (|p.1 - x| ≤ tol) && decide (|p.2 - y| ≤ tol))

/-- The subcat injection of AddPointTool.canvasReleaseEvent: with
`will_be_combined = (len(list) >= 2) or same_coord_exists`, each set
that does not already carry a truthy subcat or subCategory gets
subcat = "combined". -/
def addPointSubcats (pts : List (ℚ × ℚ)) (x y : ℚ) (attrsList : List AttrSet) :
    List AttrSet :=
  let sameCoordExists := hasSameCoordFeature pts x y COORD_TOL
  let willBeCombined := decide (2 ≤ attrsList.length) || sameCoordExists
  attrsList.map (fun a =>
    if willBeCombined && !(truthyS a.subcat || truthyS a.subCategory) then
      { a with subcat := some "combined" }
    else a)

/- ----------------------------------------------------------------
maptools.EditPointTool drag release (claim C4).
---------------------------------------------------------------- -/

/-- A feature of the click layer: id, point geometry and subcat value. -/
structure ClickFeat where
  fid : ℕ
  x : ℚ
  y : ℚ
  subcat : Option String
deriving DecidableEq, Inhabited

/-- Is a feature within `tol` of a point in both coordinates? -/
def nearPt (f : ClickFeat) (px py tol : ℚ) : Bool :=
  decide (|f.x - px| ≤ tol) && decide (|f.y - py| ≤ tol)

/-- EditPointTool._same_coord_fids: ids of the features other than `fid`
within `tol` of the given point. -/
def sameCoordFids (feats : List ClickFeat) (fid : ℕ) (px py tol : ℚ) :
    List ℕ :=
  (feats.filter (fun f => decide (f.fid ≠ fid) && nearPt f px py tol)).map
    (fun f => f.fid)

/-- Set the subcat of every feature with the given id. -/
def setSubcatFid (feats : List ClickFeat) (fid : ℕ) (v : Option String) :
    List ClickFeat :=
  feats.map (fun f => if f.fid = fid then { f with subcat := v } else f)

/-- Set the subcat of every feature whose id is in the list. -/
def setSubcatFids (feats : List ClickFeat) (fids : List ℕ)
    (v : Option String) : List ClickFeat :=
  fids.foldl (fun fs i => setSubcatFid fs i v) feats

/-- The subcat bookkeeping of EditPointTool.canvasReleaseEvent for a
finished drag (the layer has a subcat field and the pre-drag point is
known): ① clear the dragged feature's subcat; ② when other features sit
at the drop point, mark them and the dragged feature "combined"; ③ when
exactly one other feature remains at the pre-drag point, clear it. -/
def editDragRelease (feats : List ClickFeat) (dragFid : ℕ)
    (dropX dropY startX startY tol : ℚ) : List ClickFeat :=
  let fs1 := setSubcatFid feats dragFid none
  let others := sameCoordFids fs1 dragFid dropX dropY tol
  let fs2 :=
    if others.isEmpty then fs1
    else setSubcatFids (setSubcatFid fs1 dragFid (some "combined")) others
      (some "combined")
  let remain := sameCoordFids fs2 dragFid startX startY tol
  if remain.length = 1 then setSubcatFid fs2 (remain.headD 0) none else fs2

/-- First feature with the given id (layer ids are unique). -/
def findFid (feats : List ClickFeat) (i : ℕ) : Option ClickFeat :=
  feats.find? (fun f => f.fid == i)

/- ----------------------------------------------------------------
dialogs.AttrDialog multi-value encoding (claim C5).
---------------------------------------------------------------- -/

/-- The `$` anchor of a Python regex without MULTILINE: it matches at
the end of the string or just before a single trailing newline. -/
def dollarAt (l : List Char) : Bool :=
  decide (l = []) || decide (l = ['\n'])

/-- The greedy optional group `(?:\s*=\s*(\d+))?` of _MV_RE taken as
present, followed by the `$` anchor, matched at a given position:
optional whitespace (`\s` includes the newline), an equals sign,
optional whitespace, a maximal nonempty digit run, then the anchor.
Each star is deterministic here because neither `=` nor a digit is
whitespace and no digit can satisfy the anchor, so the maximal run is
the only candidate the backtracking engine can accept. -/
def matchEqNum (l : List Char) : Option ℕ :=
  match l.dropWhile isWsChar with
  | '=' :: r =>
    let d := r.dropWhile isWsChar
    let ds := d.takeWhile (fun c => c.isDigit)
    if ds ≠ [] ∧ dollarAt (d.dropWhile (fun c => c.isDigit)) = true then
      some (digitsToNat ds)
    else none
  | _ => none

/-- Python match semantics of `_MV_RE = ^(.*?)(?:\s*=\s*(\d+))?$`: the
lazy group tries the shortest prefix first and, `.` not matching a
newline, can never extend past one; at each prefix the optional group is
tried as present before as absent (bare `$`). `none` models a failed
match, in which case _parse_multivalue skips the token. -/
def mvSplit : List Char → Option (List Char × Option ℕ)
  | [] => some ([], none)
  | c :: rest =>
    match matchEqNum (c :: rest) with
    | some n => some ([], some n)
    | none =>
      if dollarAt (c :: rest) = true then some ([], none)
      else if c = '\n' then none
      else (mvSplit rest).map (fun p => (c :: p.1, p.2))

/-- Python dict assignment `out[label] = v` (overwrite or append). -/
def dictSetN (m : List (String × ℕ)) (k : String) (v : ℕ) :
    List (String × ℕ) :=
  if (List.lookup k m).isSome then
    m.map (fun p => if p.1 = k then (p.1, v) else p)
  else m ++ [(k, v)]

/-- Loop body of AttrDialog._parse_multivalue for one token: match it
against _MV_RE, skip the token when the match fails (`if not m:
continue`), strip the label, skip empty labels, default the count to 1
and clamp it to at least 1. -/
def parseMvStep (out : List (String × ℕ)) (t : List Char) :
    List (String × ℕ) :=
  match mvSplit t with
  | none => out
  | some pr =>
    let label := pyStripL pr.1
    if label = [] then out
    else dictSetN out (String.mk label) (max 1 (pr.2.getD 1))

/-- AttrDialog._parse_multivalue: split on commas, strip tokens, drop
empty ones, then fold the per-token step over them. -/
def parseMultivalue (text : String) : List (String × ℕ) :=
  (((splitOnChar ',' text.toList).map pyStripL).filter
    (fun t => t ≠ [])).foldl parseMvStep []

/-- The side conditions claim C5 places on a selectable label, plus the
amendment: the label carries no leading or trailing whitespace and
contains no newline (the lazy `.` of _MV_RE cannot cross one, so a
newline label makes the match fail and the token is skipped). -/
def labelOk (s : String) : Prop :=
  s ≠ "" ∧ pyStripL s.toList = s.toList ∧ ',' ∉ s.toList ∧
    '=' ∉ s.toList ∧ '\n' ∉ s.toList

instance (s : String) : Decidable (labelOk s) := by
  unfold labelOk
  infer_instance

/-- The encoding loop of AttrDialog._collect_values for one attribute
row: each chosen (label, count) pair becomes `label.strip()=n` with
`n = max(1, count)`, joined by ", ". -/
def collectValue (sel : List (String × ℕ)) : String :=
  String.mk (joinCommaSpace (sel.map (fun p =>
    pyStripL p.1.toList ++ '=' :: natDecimal (max 1 p.2))))

/-- The encoding claim C5 attributes to _collect_values: the comma-joined
string of plain `label=count` tokens. -/
def claimEncode (sel : List (String × ℕ)) : String :=
  String.mk (joinCommaSpace (sel.map (fun p =>
    p.1.toList ++ '=' :: natDecimal p.2)))

/- ================================================================
Theorems.
================================================================ -/

theorem stepMode_inv (s : ModeState) (ev : ModeEv)
    (h : (s.addMode && s.delMode) = false) :
    ((stepMode s ev).addMode && (stepMode s ev).delMode) = false := by
  rcases s with ⟨a, d⟩
  rcases ev with ok | ok <;> cases a <;> cases d <;> cases ok <;>
    simp_all [stepMode, toggleAdd, toggleDel, disableAdd, disableDel,
      enableAdd, enableDel]

theorem runModes_inv (evs : List ModeEv) :
    ∀ s : ModeState, (s.addMode && s.delMode) = false →
      ((runModes s evs).addMode && (runModes s evs).delMode) = false := by
  induction evs with
  | nil => intro s h; simpa [runModes] using h
  | cons ev rest ih =>
    intro s h
    have h1 := stepMode_inv s ev h
    simpa [runModes, List.foldl_cons] using ih (stepMode s ev) h1

/-- C9: starting with both modes off, no sequence of _toggle_add_mode /
_toggle_del_mode calls (each enable attempt may find the click layer
available or not) ever leaves add mode and delete mode both active. -/
theorem c9_add_del_modes_exclusive (evs : List ModeEv) :
    ((runModes ⟨false, false⟩ evs).addMode &&
      (runModes ⟨false, false⟩ evs).delMode) = false :=
  runModes_inv evs ⟨false, false⟩ rfl

/-- C6: utils.EditContext commits exactly when the body finishes without
an exception; on an exception it rolls back, leaves the committed state
unchanged and re-raises (the exception is returned, not suppressed);
fields.edit behaves the same with an unconditional startEditing. -/
theorem c6_edit_transactions (σ ε : Type) (l : VLayer σ)
    (body : σ → Except ε σ) :
    (∀ b, body (startEditingL l).buffer = Except.ok b →
      withEditContext l body =
        (⟨b, b, false⟩, none,
          (if l.editing then [] else [EditOp.start]) ++ [EditOp.commit]) ∧
      fieldsEdit l body = (⟨b, b, false⟩, none,
        [EditOp.start, EditOp.commit])) ∧
    (∀ e, body (startEditingL l).buffer = Except.error e →
      withEditContext l body =
        (⟨l.committed, l.committed, false⟩, some e,
          (if l.editing then [] else [EditOp.start]) ++ [EditOp.rollback]) ∧
      fieldsEdit l body = (⟨l.committed, l.committed, false⟩, some e,
        [EditOp.start, EditOp.rollback])) := by
  constructor
  · intro b hb
    by_cases h : l.editing <;>
      simp [withEditContext, fieldsEdit, startEditingL, commitChangesL, h]
        at hb ⊢ <;> simp [hb]
  · intro e he
    by_cases h : l.editing <;>
      simp [withEditContext, fieldsEdit, startEditingL, rollBackL, h]
        at he ⊢ <;> simp [he]

theorem c6_edit_transactions_witness :
    withEditContext (⟨0, 5, false⟩ : VLayer ℕ)
        (fun n => (Except.ok (n + 1) : Except ℕ ℕ)) =
      (⟨1, 1, false⟩, none, [EditOp.start, EditOp.commit]) ∧
    fieldsEdit (⟨0, 5, false⟩ : VLayer ℕ)
        (fun n => (Except.ok (n + 1) : Except ℕ ℕ)) =
      (⟨1, 1, false⟩, none, [EditOp.start, EditOp.commit]) := by
  have h := (c6_edit_transactions ℕ ℕ ⟨0, 5, false⟩
    (fun n => Except.ok (n + 1))).1 1 rfl
  simpa using h

/-- C8: open_with_fallback tries exactly utf-8-sig, utf-16, utf-16-le,
utf-16-be, cp932, utf-8 in that order, returns the opened handle with
the first encoding whose probe succeeds, and when all six fail raises
the error of the last attempt (utf-8). -/
theorem c8_open_with_fallback_order {H : Type}
    (attempt : String → Except String H) :
    ENCODINGS = ["utf-8-sig", "utf-16", "utf-16-le", "utf-16-be",
      "cp932", "utf-8"] ∧
    open_with_fallback attempt =
      (match ENCODINGS.find? (fun e => exceptOk (attempt e)) with
       | some e =>
         (match attempt e with
          | Except.ok h => Except.ok (h, e)
          | Except.error err => Except.error err)
       | none =>
         (match attempt "utf-8" with
          | Except.error err => Except.error err
          | Except.ok h => Except.ok (h, "utf-8"))) := by
  refine ⟨rfl, ?_⟩
  simp only [open_with_fallback, ENCODINGS]
  cases h1 : attempt "utf-8-sig" with
  | ok v => simp [openFallbackGo, h1, exceptOk]
  | error e1 =>
    cases h2 : attempt "utf-16" with
    | ok v => simp [openFallbackGo, h1, h2, exceptOk]
    | error e2 =>
      cases h3 : attempt "utf-16-le" with
      | ok v => simp [openFallbackGo, h1, h2, h3, exceptOk]
      | error e3 =>
        cases h4 : attempt "utf-16-be" with
        | ok v => simp [openFallbackGo, h1, h2, h3, h4, exceptOk]
        | error e4 =>
          cases h5 : attempt "cp932" with
          | ok v => simp [openFallbackGo, h1, h2, h3, h4, h5, exceptOk]
          | error e5 =>
            cases h6 : attempt "utf-8" with
            | ok v => simp [openFallbackGo, h1, h2, h3, h4, h5, h6, exceptOk]
            | error e6 =>
              simp [openFallbackGo, h1, h2, h3, h4, h5, h6, exceptOk]

/-- C10: detect_csv_dialect is NOT deterministic in its input: after a
call whose sample reaches the semicolon fallback (and thereby mutates
the csv.excel class), a later call whose sample contains commas but no
tab and no semicolon majority returns a semicolon delimiter, although
the same call on a fresh csv module state returns a comma. -/
theorem c10_detect_csv_dialect_state_leak :
    (detect_csv_dialect (fun _ => none) initCsvModuleState "a,b").1 = ',' ∧
    (detect_csv_dialect (fun _ => none)
        (detect_csv_dialect (fun _ => none) initCsvModuleState ";;").2
        "a,b").1 = ';' := by
  constructor <;> rfl

/-- C3: each feature created by AddPointTool.canvasReleaseEvent gets
subcat = "combined" iff the dialog returned two or more attribute sets
or some pre-existing feature lies within COORD_TOL of the click in both
coordinates — except that a set carrying its own truthy subcat or
subCategory is kept unchanged; with one set, no coincident feature and
no supplied subcat, the attribute set (hence the subcat) is untouched. -/
theorem c3_add_point_combined (pts : List (ℚ × ℚ)) (x y : ℚ)
    (l : List AttrSet) (i : ℕ) (hi : i < l.length) :
    ((truthyS (l.getD i default).subcat ||
        truthyS (l.getD i default).subCategory) = true →
      (addPointSubcats pts x y l).getD i default = l.getD i default) ∧
    ((truthyS (l.getD i default).subcat ||
        truthyS (l.getD i default).subCategory) = false →
      (((addPointSubcats pts x y l).getD i default).subcat = some "combined"
          ↔ (2 ≤ l.length ∨ hasSameCoordFeature pts x y COORD_TOL = true)) ∧
      ((addPointSubcats pts x y l).getD i default).subCategory =
        (l.getD i default).subCategory ∧
      (¬(2 ≤ l.length ∨ hasSameCoordFeature pts x y COORD_TOL = true) →
        (addPointSubcats pts x y l).getD i default = l.getD i default)) ∧
    (hasSameCoordFeature pts x y COORD_TOL = true ↔
      ∃ p ∈ pts, |p.1 - x| ≤ COORD_TOL ∧ |p.2 - y| ≤ COORD_TOL) := by
  have hlen : (addPointSubcats pts x y l).length = l.length := by
    simp [addPointSubcats]
  have hmap : (addPointSubcats pts x y l).getD i default =
      (if (decide (2 ≤ l.length) || hasSameCoordFeature pts x y COORD_TOL) &&
          !(truthyS (l.getD i default).subcat ||
            truthyS (l.getD i default).subCategory) then
        { l.getD i default with subcat := some "combined" }
      else l.getD i default) := by
    rw [List.getD_eq_getElem _ _ (hlen ▸ hi), List.getD_eq_getElem _ _ hi]
    simp [addPointSubcats]
  have hiff : hasSameCoordFeature pts x y COORD_TOL = true ↔
      ∃ p ∈ pts, |p.1 - x| ≤ COORD_TOL ∧ |p.2 - y| ≤ COORD_TOL := by
    simp [hasSameCoordFeature, List.any_eq_true]
  refine ⟨?_, ?_, hiff⟩
  · intro hown
    rw [hmap, hown]
    simp
  · intro hown
    rw [hmap, hown]
    by_cases hc : 2 ≤ l.length ∨ hasSameCoordFeature pts x y COORD_TOL = true
    · have hb : (decide (2 ≤ l.length) ||
          hasSameCoordFeature pts x y COORD_TOL) = true := by
        rcases hc with h | h <;> simp [h]
      simp [hb, hc]
    · have hb : (decide (2 ≤ l.length) ||
          hasSameCoordFeature pts x y COORD_TOL) = false := by
        push_neg at hc
        simp [hc.1, hc.2]
      have hnot : (l.getD i default).subcat ≠ some "combined" := by
        intro h
        rw [h] at hown
        simp [truthyS] at hown
      simp [hb, hc]
      simpa [List.getD] using hnot

theorem c3_add_point_combined_witness :
    (0 : ℕ) < ([(⟨none, none⟩ : AttrSet)]).length ∧
    ((truthyS (([(⟨none, none⟩ : AttrSet)]).getD 0 default).subcat ||
        truthyS (([(⟨none, none⟩ : AttrSet)]).getD 0 default).subCategory)
        = false) ∧
    ((((addPointSubcats [] 0 0 [⟨none, none⟩]).getD 0 default).subcat =
          some "combined" ↔
        (2 ≤ ([(⟨none, none⟩ : AttrSet)]).length ∨
          hasSameCoordFeature [] 0 0 COORD_TOL = true)) ∧
      ((addPointSubcats [] 0 0 [⟨none, none⟩]).getD 0 default).subCategory =
        (([(⟨none, none⟩ : AttrSet)]).getD 0 default).subCategory ∧
      (¬(2 ≤ ([(⟨none, none⟩ : AttrSet)]).length ∨
          hasSameCoordFeature [] 0 0 COORD_TOL = true) →
        (addPointSubcats [] 0 0 [⟨none, none⟩]).getD 0 default =
          ([(⟨none, none⟩ : AttrSet)]).getD 0 default)) :=
  ⟨by decide, by decide,
    (c3_add_point_combined [] 0 0 [⟨none, none⟩] 0 (by decide)).2.1
      (by decide)⟩

theorem findFid_setSubcatFid (fs : List ClickFeat) (j : ℕ) (v : Option String)
    (i : ℕ) :
    findFid (setSubcatFid fs j v) i =
      if i = j then (findFid fs i).map (fun g => { g with subcat := v })
      else findFid fs i := by
  induction fs with
  | nil => simp [findFid, setSubcatFid]
  | cons f fs ih =>
    by_cases hij : i = j
    · subst hij
      by_cases hf : f.fid = i
      · subst hf
        simp [setSubcatFid, findFid]
      · simp only [setSubcatFid, List.map_cons, findFid] at ih ⊢
        rw [if_neg hf]
        rw [List.find?_cons_of_neg _ (by simp [hf]),
          List.find?_cons_of_neg _ (by simp [hf])]
        simpa using ih
    · by_cases hf : f.fid = i
      · have hfj : ¬f.fid = j := by rw [hf]; exact hij
        simp only [setSubcatFid, List.map_cons, findFid]
        rw [if_neg hfj]
        rw [List.find?_cons_of_pos _ (by simp [hf]),
          List.find?_cons_of_pos _ (by simp [hf])]
        rw [if_neg hij]
      · simp only [setSubcatFid, List.map_cons, findFid] at ih ⊢
        by_cases hfj : f.fid = j
        · rw [if_pos hfj]
          rw [List.find?_cons_of_neg _ (by simp [hf]),
            List.find?_cons_of_neg _ (by simp [hf])]
          simpa [hij] using ih
        · rw [if_neg hfj]
          rw [List.find?_cons_of_neg _ (by simp [hf]),
            List.find?_cons_of_neg _ (by simp [hf])]
          simpa [hij] using ih

theorem findFid_setSubcatFids (js : List ℕ) (fs : List ClickFeat)
    (v : Option String) (i : ℕ) :
    findFid (setSubcatFids fs js v) i =
      if i ∈ js then (findFid fs i).map (fun g => { g with subcat := v })
      else findFid fs i := by
  induction js generalizing fs with
  | nil => simp [setSubcatFids]
  | cons j js ih =>
    have hstep : setSubcatFids fs (j :: js) v =
        setSubcatFids (setSubcatFid fs j v) js v := rfl
    rw [hstep, ih]
    by_cases hmem : i ∈ js
    · rw [if_pos hmem, if_pos (List.mem_cons_of_mem j hmem)]
      rw [findFid_setSubcatFid]
      by_cases hij : i = j
      · rw [if_pos hij]
        cases findFid fs i <;> simp
      · rw [if_neg hij]
    · rw [if_neg hmem, findFid_setSubcatFid]
      by_cases hij : i = j
      · rw [if_pos hij, if_pos (by simp [hij])]
      · rw [if_neg hij, if_neg (by simp [hij, hmem])]

theorem sameCoordFids_setSubcatFid (fs : List ClickFeat) (j : ℕ)
    (v : Option String) (fid : ℕ) (px py tol : ℚ) :
    sameCoordFids (setSubcatFid fs j v) fid px py tol =
      sameCoordFids fs fid px py tol := by
  induction fs with
  | nil => rfl
  | cons f fs ih =>
    simp only [setSubcatFid, List.map_cons] at ih ⊢
    by_cases hfj : f.fid = j
    · simp only [sameCoordFids, List.filter_cons] at ih ⊢
      rw [if_pos hfj]
      have hsame : (decide ({ f with subcat := v }.fid ≠ fid) &&
          nearPt { f with subcat := v } px py tol) =
          (decide (f.fid ≠ fid) && nearPt f px py tol) := by
        simp [nearPt]
      rw [hsame]
      cases hcond : (decide (f.fid ≠ fid) && nearPt f px py tol) <;>
        simp_all [sameCoordFids]
    · simp only [sameCoordFids, List.filter_cons] at ih ⊢
      rw [if_neg hfj]
      cases hcond : (decide (f.fid ≠ fid) && nearPt f px py tol) <;>
        simp_all [sameCoordFids]

theorem sameCoordFids_setSubcatFids (js : List ℕ) (fs : List ClickFeat)
    (v : Option String) (fid : ℕ) (px py tol : ℚ) :
    sameCoordFids (setSubcatFids fs js v) fid px py tol =
      sameCoordFids fs fid px py tol := by
  induction js generalizing fs with
  | nil => rfl
  | cons j js ih =>
    have hstep : setSubcatFids fs (j :: js) v =
        setSubcatFids (setSubcatFid fs j v) js v := rfl
    rw [hstep, ih, sameCoordFids_setSubcatFid]

theorem findFid_of_mem_nodup (fs : List ClickFeat) (g : ClickFeat)
    (hnd : (fs.map (fun f => f.fid)).Nodup) (hg : g ∈ fs) :
    findFid fs g.fid = some g := by
  induction fs with
  | nil => cases hg
  | cons f fs ih =>
    rcases List.mem_cons.mp hg with h | h
    · subst h
      simp [findFid]
    · have hne : f.fid ≠ g.fid := by
        intro he
        have : g.fid ∈ fs.map (fun f => f.fid) :=
          List.mem_map.mpr ⟨g, h, rfl⟩
        rw [List.map_cons, List.nodup_cons] at hnd
        exact hnd.1 (he ▸ this)
      simp only [findFid] at ih ⊢
      rw [List.find?_cons_of_neg _ (by simp [hne])]
      exact ih (by
        rw [List.map_cons, List.nodup_cons] at hnd
        exact hnd.2) h

theorem fid_inj_of_nodup (fs : List ClickFeat) (g h : ClickFeat)
    (hnd : (fs.map (fun f => f.fid)).Nodup) (hg : g ∈ fs) (hh : h ∈ fs)
    (he : g.fid = h.fid) : g = h := by
  have h1 := findFid_of_mem_nodup fs g hnd hg
  have h2 := findFid_of_mem_nodup fs h hnd hh
  rw [he, h2] at h1
  exact (Option.some_injective _ h1).symm

theorem mem_sameCoordFids (fs : List ClickFeat) (fid : ℕ) (px py tol : ℚ)
    (i : ℕ) :
    i ∈ sameCoordFids fs fid px py tol ↔
      ∃ f ∈ fs, f.fid = i ∧ i ≠ fid ∧ nearPt f px py tol = true := by
  simp only [sameCoordFids, List.mem_map, List.mem_filter]
  constructor
  · rintro ⟨f, ⟨hf, hcond⟩, rfl⟩
    simp only [Bool.and_eq_true, decide_eq_true_eq] at hcond
    exact ⟨f, hf, rfl, hcond.1, hcond.2⟩
  · rintro ⟨f, hf, rfl, hne, hnear⟩
    exact ⟨f, ⟨hf, by simp [hne, hnear]⟩, rfl⟩

theorem findFid_editDragRelease (feats : List ClickFeat) (dragFid : ℕ)
    (dX dY sX sY tol : ℚ) (i : ℕ) :
    findFid (editDragRelease feats dragFid dX dY sX sY tol) i =
      (if (sameCoordFids feats dragFid sX sY tol).length = 1 ∧
          i = (sameCoordFids feats dragFid sX sY tol).headD 0 then
        (if (sameCoordFids feats dragFid dX dY tol).isEmpty then
          (if i = dragFid then
            (findFid feats i).map (fun g => { g with subcat := none })
          else findFid feats i)
        else
          (if i = dragFid ∨ i ∈ sameCoordFids feats dragFid dX dY tol then
            (findFid feats i).map (fun g => { g with subcat := some "combined" })
          else findFid feats i)).map (fun g => { g with subcat := none })
      else
        (if (sameCoordFids feats dragFid dX dY tol).isEmpty then
          (if i = dragFid then
            (findFid feats i).map (fun g => { g with subcat := none })
          else findFid feats i)
        else
          (if i = dragFid ∨ i ∈ sameCoordFids feats dragFid dX dY tol then
            (findFid feats i).map (fun g => { g with subcat := some "combined" })
          else findFid feats i))) := by
  classical
  have hfs1 : ∀ j : ℕ, findFid (setSubcatFid feats dragFid none) j =
      (if j = dragFid then
        (findFid feats j).map (fun g => { g with subcat := none })
      else findFid feats j) :=
    fun j => findFid_setSubcatFid feats dragFid none j
  have hfs2 : ∀ j : ℕ,
      findFid (setSubcatFids
        (setSubcatFid (setSubcatFid feats dragFid none) dragFid
          (some "combined"))
        (sameCoordFids feats dragFid dX dY tol) (some "combined")) j =
      (if j = dragFid ∨ j ∈ sameCoordFids feats dragFid dX dY tol then
        (findFid feats j).map (fun g => { g with subcat := some "combined" })
      else findFid feats j) := by
    intro j
    rw [findFid_setSubcatFids, findFid_setSubcatFid, findFid_setSubcatFid]
    by_cases hj : j = dragFid
    · by_cases hjm : j ∈ sameCoordFids feats dragFid dX dY tol <;>
        cases findFid feats j <;> simp [hj, hjm]
    · by_cases hjm : j ∈ sameCoordFids feats dragFid dX dY tol <;>
        simp [hj, hjm]
  simp only [editDragRelease, sameCoordFids_setSubcatFid]
  by_cases hemp : (sameCoordFids feats dragFid dX dY tol).isEmpty
  · rw [if_pos hemp, if_pos hemp, sameCoordFids_setSubcatFid]
    by_cases hrem : (sameCoordFids feats dragFid sX sY tol).length = 1
    · rw [if_pos hrem]
      by_cases hi : i = (sameCoordFids feats dragFid sX sY tol).headD 0
      · rw [if_pos ⟨hrem, hi⟩, findFid_setSubcatFid, if_pos hi, hfs1]
      · rw [if_neg (fun h => hi h.2), findFid_setSubcatFid, if_neg hi, hfs1]
    · rw [if_neg hrem, if_neg (fun h => hrem h.1), hfs1]
  · rw [if_neg hemp, if_neg hemp, sameCoordFids_setSubcatFids,
      sameCoordFids_setSubcatFid, sameCoordFids_setSubcatFid]
    by_cases hrem : (sameCoordFids feats dragFid sX sY tol).length = 1
    · rw [if_pos hrem]
      by_cases hi : i = (sameCoordFids feats dragFid sX sY tol).headD 0
      · rw [if_pos ⟨hrem, hi⟩, findFid_setSubcatFid, if_pos hi, hfs2]
      · rw [if_neg (fun h => hi h.2), findFid_setSubcatFid, if_neg hi, hfs2]
    · rw [if_neg hrem, if_neg (fun h => hrem h.1), hfs2]

theorem headD_mem_of_length_eq_one {l : List ℕ} (h : l.length = 1) :
    l.headD 0 ∈ l := by
  rcases List.length_eq_one.mp h with ⟨a, rfl⟩
  simp

/-- C4 (amended): after an EditPointTool drag of feature F is released —
provided no feature other than F lies within COORD_TOL of both the drop
point and the pre-drag coordinate — F's subcat equals "combined" iff
some other feature lies within COORD_TOL of the drop point (otherwise it
is cleared to none); every other feature at the drop point gets subcat
"combined"; when exactly one other feature remains at the pre-drag
coordinate its subcat is cleared to none, and with two or more remaining
they are left entirely untouched. -/
theorem c4_edit_drag_release (feats : List ClickFeat) (dragFid : ℕ)
    (dropX dropY startX startY : ℚ)
    (hnd : (feats.map (fun f => f.fid)).Nodup)
    (hsep : ∀ f ∈ feats, f.fid ≠ dragFid →
      ¬(nearPt f dropX dropY COORD_TOL = true ∧
        nearPt f startX startY COORD_TOL = true)) :
    (findFid (editDragRelease feats dragFid dropX dropY startX startY
        COORD_TOL) dragFid =
      (findFid feats dragFid).map (fun g =>
        { g with subcat :=
            if ∃ f ∈ feats, f.fid ≠ dragFid ∧
                nearPt f dropX dropY COORD_TOL = true
            then some "combined" else none })) ∧
    (∀ g ∈ feats, g.fid ≠ dragFid → nearPt g dropX dropY COORD_TOL = true →
      findFid (editDragRelease feats dragFid dropX dropY startX startY
          COORD_TOL) g.fid = some { g with subcat := some "combined" }) ∧
    ((sameCoordFids feats dragFid startX startY COORD_TOL).length = 1 →
      ∀ g ∈ feats, g.fid ≠ dragFid →
        nearPt g startX startY COORD_TOL = true →
        findFid (editDragRelease feats dragFid dropX dropY startX startY
            COORD_TOL) g.fid = some { g with subcat := none }) ∧
    (2 ≤ (sameCoordFids feats dragFid startX startY COORD_TOL).length →
      ∀ g ∈ feats, g.fid ≠ dragFid →
        nearPt g startX startY COORD_TOL = true →
        findFid (editDragRelease feats dragFid dropX dropY startX startY
            COORD_TOL) g.fid = some g) := by
  classical
  have hmemO := fun i =>
    mem_sameCoordFids feats dragFid dropX dropY COORD_TOL i
  have hmemR := fun i =>
    mem_sameCoordFids feats dragFid startX startY COORD_TOL i
  refine ⟨?_, ?_, ?_, ?_⟩
  · rw [findFid_editDragRelease]
    have hnc : ¬((sameCoordFids feats dragFid startX startY
        COORD_TOL).length = 1 ∧
        dragFid = (sameCoordFids feats dragFid startX startY
          COORD_TOL).headD 0) := by
      rintro ⟨h1, h2⟩
      rcases (hmemR _).mp (headD_mem_of_length_eq_one h1) with
        ⟨f, hf, hfid, hne, hnear⟩
      exact hne h2.symm
    rw [if_neg hnc]
    by_cases hemp :
        (sameCoordFids feats dragFid dropX dropY COORD_TOL).isEmpty
    · have hno : ¬∃ f ∈ feats, f.fid ≠ dragFid ∧
          nearPt f dropX dropY COORD_TOL = true := by
        rintro ⟨f, hf, hne, hnear⟩
        have hmem : f.fid ∈ sameCoordFids feats dragFid dropX dropY
            COORD_TOL := (hmemO _).mpr ⟨f, hf, rfl, hne, hnear⟩
        rw [List.isEmpty_iff.mp hemp] at hmem
        cases hmem
      have hval : (if ∃ f ∈ feats, f.fid ≠ dragFid ∧
          nearPt f dropX dropY COORD_TOL = true
          then some "combined" else (none : Option String)) = none :=
        if_neg hno
      simp only [hval]
      rw [if_pos hemp]
      simp
    · have hyes : ∃ f ∈ feats, f.fid ≠ dragFid ∧
          nearPt f dropX dropY COORD_TOL = true := by
        rcases List.exists_mem_of_ne_nil
            (sameCoordFids feats dragFid dropX dropY COORD_TOL)
            (fun h => hemp (by rw [h]; rfl)) with ⟨i, hi⟩
        rcases (hmemO _).mp hi with ⟨f, hf, hfid, hne, hnear⟩
        exact ⟨f, hf, by rw [hfid]; exact hne, hnear⟩
      have hval : (if ∃ f ∈ feats, f.fid ≠ dragFid ∧
          nearPt f dropX dropY COORD_TOL = true
          then some "combined" else (none : Option String)) =
          some "combined" := if_pos hyes
      simp only [hval]
      rw [if_neg hemp]
      simp
  · intro g hg hgne hgnear
    rw [findFid_editDragRelease]
    have hgmem : g.fid ∈ sameCoordFids feats dragFid dropX dropY
        COORD_TOL := (hmemO _).mpr ⟨g, hg, rfl, hgne, hgnear⟩
    have hnc : ¬((sameCoordFids feats dragFid startX startY
        COORD_TOL).length = 1 ∧
        g.fid = (sameCoordFids feats dragFid startX startY
          COORD_TOL).headD 0) := by
      rintro ⟨h1, h2⟩
      rcases (hmemR _).mp (headD_mem_of_length_eq_one h1) with
        ⟨f, hf, hfid, hne, hnearS⟩
      have hfg : f = g :=
        fid_inj_of_nodup feats f g hnd hf hg (by rw [hfid, ← h2])
      exact (hsep g hg hgne) ⟨hgnear, by rw [← hfg]; exact hnearS⟩
    rw [if_neg hnc]
    have hemp : ¬(sameCoordFids feats dragFid dropX dropY
        COORD_TOL).isEmpty := by
      intro h
      rw [List.isEmpty_iff.mp h] at hgmem
      cases hgmem
    rw [if_neg hemp, if_pos (Or.inr hgmem),
      findFid_of_mem_nodup feats g hnd hg]
    rfl
  · intro hrem g hg hgne hgnear
    rw [findFid_editDragRelease]
    have hgmem : g.fid ∈ sameCoordFids feats dragFid startX startY
        COORD_TOL := (hmemR _).mpr ⟨g, hg, rfl, hgne, hgnear⟩
    have hhead : g.fid = (sameCoordFids feats dragFid startX startY
        COORD_TOL).headD 0 := by
      rcases List.length_eq_one.mp hrem with ⟨a, ha⟩
      rw [ha] at hgmem
      rw [ha]
      simpa using hgmem
    rw [if_pos ⟨hrem, hhead⟩]
    have hnotO : g.fid ∉ sameCoordFids feats dragFid dropX dropY
        COORD_TOL := by
      intro hmem
      rcases (hmemO _).mp hmem with ⟨f, hf, hfid, hne, hnearD⟩
      have hfg : f = g := fid_inj_of_nodup feats f g hnd hf hg hfid
      exact (hsep g hg hgne) ⟨by rw [← hfg]; exact hnearD, hgnear⟩
    by_cases hemp :
        (sameCoordFids feats dragFid dropX dropY COORD_TOL).isEmpty
    · rw [if_pos hemp, if_neg hgne, findFid_of_mem_nodup feats g hnd hg]
      rfl
    · rw [if_neg hemp,
        if_neg (fun h => h.elim (fun h1 => hgne h1) (fun h2 => hnotO h2)),
        findFid_of_mem_nodup feats g hnd hg]
      rfl
  · intro hrem g hg hgne hgnear
    rw [findFid_editDragRelease]
    have hnc : ¬((sameCoordFids feats dragFid startX startY
        COORD_TOL).length = 1 ∧
        g.fid = (sameCoordFids feats dragFid startX startY
          COORD_TOL).headD 0) := by
      rintro ⟨h1, _⟩
      omega
    rw [if_neg hnc]
    have hnotO : g.fid ∉ sameCoordFids feats dragFid dropX dropY
        COORD_TOL := by
      intro hmem
      rcases (hmemO _).mp hmem with ⟨f, hf, hfid, hne, hnearD⟩
      have hfg : f = g := fid_inj_of_nodup feats f g hnd hf hg hfid
      exact (hsep g hg hgne) ⟨by rw [← hfg]; exact hnearD, hgnear⟩
    by_cases hemp :
        (sameCoordFids feats dragFid dropX dropY COORD_TOL).isEmpty
    · rw [if_pos hemp, if_neg hgne]
      exact findFid_of_mem_nodup feats g hnd hg
    · rw [if_neg hemp,
        if_neg (fun h => h.elim (fun h1 => hgne h1) (fun h2 => hnotO h2))]
      exact findFid_of_mem_nodup feats g hnd hg

/-- C4 counterexample: when the drop point coincides with the pre-drag
coordinate, the unique other feature at the drop point ends with its
subcat cleared to none by step ③ — not "combined" as the claim states
for every other feature at the drop point. -/
theorem c4_counterexample_drop_at_start :
    nearPt ⟨1, 0, 0, none⟩ 0 0 COORD_TOL = true ∧
    findFid (editDragRelease [⟨0, 0, 0, none⟩, ⟨1, 0, 0, none⟩] 0
        0 0 0 0 COORD_TOL) 1 = some ⟨1, 0, 0, none⟩ ∧
    (⟨1, 0, 0, none⟩ : ClickFeat).subcat ≠ some "combined" := by
  have h1 : nearPt ⟨1, 0, 0, none⟩ (0 : ℚ) 0 COORD_TOL = true := by
    norm_num [nearPt, COORD_TOL]
  have h2 : nearPt ⟨1, 0, 0, some "combined"⟩ (0 : ℚ) 0 COORD_TOL = true := by
    norm_num [nearPt, COORD_TOL]
  refine ⟨h1, ?_, by simp⟩
  simp [editDragRelease, sameCoordFids, setSubcatFid, setSubcatFids,
    findFid, h1, h2]

theorem c4_edit_drag_release_witness :
    (findFid (editDragRelease [] 0 0 0 0 0 COORD_TOL) 0 =
      (findFid [] 0).map (fun g =>
        { g with subcat :=
            if ∃ f ∈ ([] : List ClickFeat), f.fid ≠ 0 ∧
                nearPt f 0 0 COORD_TOL = true
            then some "combined" else none })) ∧
    (∀ g ∈ ([] : List ClickFeat), g.fid ≠ 0 →
      nearPt g 0 0 COORD_TOL = true →
      findFid (editDragRelease [] 0 0 0 0 0 COORD_TOL) g.fid =
        some { g with subcat := some "combined" }) ∧
    ((sameCoordFids [] 0 0 0 COORD_TOL).length = 1 →
      ∀ g ∈ ([] : List ClickFeat), g.fid ≠ 0 →
        nearPt g 0 0 COORD_TOL = true →
        findFid (editDragRelease [] 0 0 0 0 0 COORD_TOL) g.fid =
          some { g with subcat := none }) ∧
    (2 ≤ (sameCoordFids [] 0 0 0 COORD_TOL).length →
      ∀ g ∈ ([] : List ClickFeat), g.fid ≠ 0 →
        nearPt g 0 0 COORD_TOL = true →
        findFid (editDragRelease [] 0 0 0 0 0 COORD_TOL) g.fid = some g) :=
  c4_edit_drag_release [] 0 0 0 0 0 (by simp) (by simp)

theorem lookup_append_single (m : List (String × ℕ)) (key : String) (i : ℕ)
    (k : String) :
    List.lookup k (m ++ [(key, i)]) =
      match List.lookup k m with
      | some v => some v
      | none => if k == key then some i else none := by
  induction m with
  | nil => by_cases h : k == key <;> simp [List.lookup, h]
  | cons p m ih =>
    rcases p with ⟨k1, v1⟩
    by_cases h : k == k1 <;> simp [List.lookup, h, ih]

theorem lookup_kpMapInsert (m : List (String × ℕ)) (key : String) (i : ℕ)
    (k : String) :
    List.lookup k (kpMapInsert m key i) =
      match List.lookup k m with
      | some v => some v
      | none => if k == key then some i else none := by
  unfold kpMapInsert
  by_cases h : (List.lookup key m).isSome
  · rw [if_pos h]
    cases hk : List.lookup k m with
    | some v => simp
    | none =>
      by_cases hkk : k == key
      · have : k = key := by simpa using hkk
        rw [this] at hk
        rw [hk] at h
        simp at h
      · simp [hkk]
  · rw [if_neg h, lookup_append_single]

theorem lookup_map_replace (m : List (String × ℕ)) (key : String) (i : ℕ)
    (k : String) :
    List.lookup k (m.map (fun p => if p.1 = key then (p.1, i) else p)) =
      if k == key then (List.lookup k m).map (fun _ => i)
      else List.lookup k m := by
  induction m with
  | nil => by_cases hkk : k == key <;> simp [List.lookup, hkk]
  | cons p m ih =>
    rcases p with ⟨k1, v1⟩
    simp only [List.map_cons]
    by_cases hpk : k1 = key
    · subst hpk
      rw [if_pos rfl]
      by_cases hkk : k == k1 <;> simp [List.lookup, hkk, ih]
    · rw [if_neg hpk]
      by_cases hkk : k == k1
      · have hke : k = k1 := by simpa using hkk
        subst hke
        have hnk : ¬(k == key) = true := by simpa using hpk
        simp [List.lookup, hnk]
      · simp [List.lookup, hkk, ih]

theorem lookup_dictSet (m : List (String × ℕ)) (key : String) (i : ℕ)
    (k : String) :
    List.lookup k (dictSet m key i) =
      if k == key then some i else List.lookup k m := by
  unfold dictSet
  by_cases h : (List.lookup key m).isSome
  · rw [if_pos h, lookup_map_replace]
    by_cases hkk : k == key
    · have hke : k = key := by simpa using hkk
      rcases Option.isSome_iff_exists.mp h with ⟨v, hv⟩
      rw [if_pos hkk, if_pos hkk, hke, hv]
      rfl
    · rw [if_neg hkk, if_neg hkk]
  · rw [if_neg h, lookup_append_single]
    cases hk : List.lookup k m with
    | some v =>
      by_cases hkk : k == key
      · have hke : k = key := by simpa using hkk
        rw [hke] at hk
        rw [hk] at h
        simp at h
      · simp [hkk, hk]
    | none => simp

theorem lookup_idxByKpAux (pairs : List (ℕ × Row)) :
    ∀ (m : List (String × ℕ)) (k : String), k ≠ "" →
      List.lookup k (idxByKpAux m pairs) =
        match List.lookup k m with
        | some v => some v
        | none =>
          (pairs.find? (fun p => stripLower p.2.kp == k)).map Prod.fst := by
  induction pairs with
  | nil =>
    intro m k _
    cases hm : List.lookup k m <;> simp [idxByKpAux, hm]
  | cons q rest ih =>
    intro m k hk
    rcases q with ⟨i, r⟩
    simp only [idxByKpAux]
    by_cases hkp : r.kp ≠ ""
    · rw [if_pos hkp, ih _ k hk, lookup_kpMapInsert]
      cases hm : List.lookup k m with
      | some v => simp
      | none =>
        by_cases hsk : stripLower r.kp == k
        · have hke : stripLower r.kp = k := by simpa using hsk
          rw [List.find?_cons_of_pos _ (by simpa using hke)]
          simp [hke]
        · have hke : ¬k == stripLower r.kp := by
            intro h
            exact hsk (by simpa using (by simpa using h : k = stripLower r.kp).symm)
          rw [List.find?_cons_of_neg _ (by simpa using fun h => hsk (by simp [h]))]
          simp [hke]
    · rw [if_neg hkp, ih _ k hk]
      have hempty : r.kp = "" := by simpa using hkp
      have hpred : ¬(stripLower r.kp == k) = true := by
        rw [hempty]
        simpa using fun h => hk h.symm
      rw [List.find?_cons_of_neg _ (by exact hpred)]

theorem lookup_idxByPicAux (pairs : List (ℕ × Row)) :
    ∀ (m : List (String × ℕ)) (k : String), k ≠ "" →
      List.lookup k (idxByPicAux m pairs) =
        match lastIdxWhere (picMatch k) pairs with
        | some j => some j
        | none => List.lookup k m := by
  induction pairs with
  | nil =>
    intro m k _
    simp [idxByPicAux, lastIdxWhere]
  | cons q rest ih =>
    intro m k hk
    rcases q with ⟨i, r⟩
    simp only [idxByPicAux]
    rw [ih _ k hk]
    have hstep : ∀ (mm : List (String × ℕ)) (nm : String),
        List.lookup k (if nm ≠ "" then dictSet mm nm i else mm) =
          if nm == k then some i else List.lookup k mm := by
      intro mm nm
      by_cases hb : nm == k
      · have hbe : nm = k := by simpa using hb
        rw [if_pos (by rw [hbe]; exact hk), hbe, lookup_dictSet]
      · rw [if_neg hb]
        by_cases hne : nm ≠ ""
        · rw [if_pos hne, lookup_dictSet,
            if_neg (by simpa using fun h => hb (by simp [h]))]
        · rw [if_neg hne]
    rw [hstep, hstep]
    cases hrest : lastIdxWhere (picMatch k) rest with
    | some j => simp [lastIdxWhere, hrest]
    | none =>
      simp only [lastIdxWhere, hrest]
      by_cases hbk : stripLower r.back == k
      · simp [picMatch, hbk]
      · by_cases hfk : stripLower r.front == k
        · simp [picMatch, hbk, hfk]
        · simp [picMatch, hbk, hfk]

/-- C7 (amended): _idx_by_kp maps each non-empty trimmed lowercased KP
string to the index of its FIRST occurrence, _idx_by_pic maps each
non-empty trimmed lowercased picture name to the index of its LAST
occurrence, and for a key whose trimmed lowercased form is non-empty,
_jump prefers the KP map, falls back to the pic map, and otherwise shows
only an info message (a key that trims to the empty string returns
silently without any message). -/
theorem c7_jump_prefers_kp (rows : List Row) (k : String) (keyText : String)
    (hk : k ≠ "") (hkey : stripLower keyText ≠ "") :
    List.lookup k (idxByKp rows) =
      ((withIdx 0 rows).find? (fun p => stripLower p.2.kp == k)).map
        Prod.fst ∧
    List.lookup k (idxByPic rows) =
      lastIdxWhere (picMatch k) (withIdx 0 rows) ∧
    jump rows keyText = jumpSpec rows keyText := by
  refine ⟨?_, ?_, ?_⟩
  · rw [idxByKp, lookup_idxByKpAux _ _ _ hk]
    simp [List.lookup]
  · rw [idxByPic, lookup_idxByPicAux _ _ _ hk]
    cases lastIdxWhere (picMatch k) (withIdx 0 rows) <;> simp [List.lookup]
  · simp only [jump, jumpSpec]
    rw [if_neg hkey]

/-- C7 counterexample: _jump on a whitespace-only key returns silently,
while the claim's otherwise-branch promises an info message. -/
theorem c7_counterexample_blank_key :
    jump [sampleRow] " " = JumpResult.silent ∧
    jumpSpec [sampleRow] " " = JumpResult.info ∧
    JumpResult.silent ≠ JumpResult.info := by
  refine ⟨by decide, by decide, by decide⟩

theorem c7_jump_prefers_kp_witness :
    List.lookup "kp1" (idxByKp [sampleRow]) =
      ((withIdx 0 [sampleRow]).find?
        (fun p => stripLower p.2.kp == "kp1")).map Prod.fst ∧
    List.lookup "kp1" (idxByPic [sampleRow]) =
      lastIdxWhere (picMatch "kp1") (withIdx 0 [sampleRow]) ∧
    jump [sampleRow] " KP1 " = jumpSpec [sampleRow] " KP1 " :=
  c7_jump_prefers_kp [sampleRow] "kp1" " KP1 " (by decide) (by decide)

theorem listIndex_some_lt (cur : ℕ) :
    ∀ (l : List ℕ) (pos : ℕ), listIndex cur l = some pos → pos < l.length := by
  intro l
  induction l with
  | nil => intro pos h; simp [listIndex] at h
  | cons j rest ih =>
    intro pos h
    by_cases hj : j = cur
    · rw [listIndex, if_pos hj] at h
      cases h
      simp
    · rw [listIndex, if_neg hj] at h
      cases hrec : listIndex cur rest with
      | none => rw [hrec] at h; cases h
      | some q =>
        rw [hrec] at h
        cases h
        have := ih q hrec
        simp only [List.length_cons]
        omega

theorem prevNextRows_eq_spec (images : List Row) (kpOrder : List ℕ)
    (cur : ℕ) (hlen : ∀ j ∈ kpOrder, j < images.length) :
    prevNextRows images kpOrder cur =
      (specPrevRow images kpOrder cur, specNextRow images kpOrder cur) := by
  unfold prevNextRows specPrevRow specNextRow
  by_cases hnil : kpOrder = []
  · subst hnil
    simp [listIndex]
  · rw [if_neg hnil]
    cases hidx : listIndex cur kpOrder with
    | none => simp
    | some pos =>
      dsimp only
      have hposlt : pos < kpOrder.length := listIndex_some_lt cur kpOrder pos hidx
      have hb1 : ¬(0 < pos ∧ images.length ≤ kpOrder.getD (pos - 1) 0) := by
        rintro ⟨hpos, hle⟩
        have hmem : kpOrder.getD (pos - 1) 0 ∈ kpOrder := by
          rw [List.getD_eq_getElem kpOrder 0 (by omega)]
          exact List.getElem_mem (by omega)
        exact absurd (hlen _ hmem) (by omega)
      have hb2 : ¬(pos < kpOrder.length - 1 ∧
          images.length ≤ kpOrder.getD (pos + 1) 0) := by
        rintro ⟨hpos, hle⟩
        have hmem : kpOrder.getD (pos + 1) 0 ∈ kpOrder := by
          rw [List.getD_eq_getElem kpOrder 0 (by omega)]
          exact List.getElem_mem (by omega)
        exact absurd (hlen _ hmem) (by omega)
      rw [if_neg hb2, if_neg hb1]

/-- C2: with the index built (kpOrder a permutation of the row indices)
and a non-empty image list, show_image displays on the front side the
image the claim describes: it borrows from the previous row in kpOrder —
preferring that row's front picture, then its back — exactly when the
current row has lat_kp and lon_kp and the previous row has the same
street string, and otherwise uses the row's own front picture; the back
side symmetrically borrows the next row's back then front; `none` means
the empty placeholder is shown because no candidate is non-empty. -/
theorem c2_show_image_borrowing (images : List Row) (kpOrder : List ℕ)
    (idx : ℤ) (hne : images ≠ [])
    (hperm : kpOrder.Perm (List.range images.length)) :
    showFrontDisp images kpOrder idx = specFrontDisp images kpOrder idx ∧
    showBackDisp images kpOrder idx = specBackDisp images kpOrder idx := by
  have hlen : ∀ j ∈ kpOrder, j < images.length := by
    intro j hj
    have := hperm.mem_iff.mp hj
    simpa using this
  constructor
  · rcases images with _ | ⟨r, rs⟩
    · cases hne rfl
    · simp only [showFrontDisp, specFrontDisp]
      rw [prevNextRows_eq_spec _ _ _ hlen]
      set row := (r :: rs).getD (currentIndex (r :: rs).length idx) default
        with hrow
      cases hp : specPrevRow (r :: rs) kpOrder
          (currentIndex (r :: rs).length idx) with
      | none =>
        by_cases hc : (row.lat_kp.isSome && row.lon_kp.isSome) = true <;>
          simp [hc]
      | some pR =>
        by_cases hla : row.lat_kp.isSome <;>
        by_cases hlo : row.lon_kp.isSome <;>
        by_cases hst : pR.street = row.street <;>
          simp [hla, hlo, hst]
  · rcases images with _ | ⟨r, rs⟩
    · cases hne rfl
    · simp only [showBackDisp, specBackDisp]
      rw [prevNextRows_eq_spec _ _ _ hlen]
      set row := (r :: rs).getD (currentIndex (r :: rs).length idx) default
        with hrow
      cases hp : specNextRow (r :: rs) kpOrder
          (currentIndex (r :: rs).length idx) with
      | none =>
        by_cases hc : (row.lat_kp.isSome && row.lon_kp.isSome) = true <;>
          simp [hc]
      | some nR =>
        by_cases hla : row.lat_kp.isSome <;>
        by_cases hlo : row.lon_kp.isSome <;>
        by_cases hst : nR.street = row.street <;>
          simp [hla, hlo, hst]

theorem c2_show_image_borrowing_witness :
    showFrontDisp [sampleRow] [0] 0 = specFrontDisp [sampleRow] [0] 0 ∧
    showBackDisp [sampleRow] [0] 0 = specBackDisp [sampleRow] [0] 0 :=
  c2_show_image_borrowing [sampleRow] [0] 0 (by simp) (by decide)

theorem withIdx_map_fst {α : Type} :
    ∀ (n : ℕ) (l : List α),
      (withIdx n l).map Prod.fst = List.range' n l.length := by
  intro n l
  induction l generalizing n with
  | nil => simp [withIdx]
  | cons a l ih =>
    rw [withIdx, List.map_cons, List.length_cons, List.range'_succ, ih]

theorem mem_withIdx {α : Type} :
    ∀ (n : ℕ) (l : List α) (p : ℕ × α), p ∈ withIdx n l →
      n ≤ p.1 ∧ p.1 - n < l.length ∧ ∀ d : α, l.getD (p.1 - n) d = p.2 := by
  intro n l
  induction l generalizing n with
  | nil => intro p hp; cases hp
  | cons a l ih =>
    intro p hp
    rcases List.mem_cons.mp hp with h | h
    · subst h
      refine ⟨le_refl _, by simp, ?_⟩
      intro d
      simp
    · rcases ih (n + 1) p h with ⟨h1, h2, h3⟩
      refine ⟨by omega, by simp only [List.length_cons]; omega, ?_⟩
      intro d
      have hsplit : p.1 - n = (p.1 - (n + 1)) + 1 := by omega
      rw [hsplit, List.getD_cons_succ]
      exact h3 d

theorem sortKey_le_imp_specRowLe (r1 r2 : Row)
    (h : sortKey r1 ≤ sortKey r2) : specRowLe r1 r2 := by
  unfold sortKey at h
  rw [Prod.Lex.le_iff] at h
  unfold specRowLe
  rcases h with h | ⟨heq, h2⟩
  · exact Or.inl h
  · refine Or.inr ⟨heq, ?_⟩
    cases hp1 : pyFloatQ (stripKpChars r1.kp) with
    | some q1 =>
      cases hp2 : pyFloatQ (stripKpChars r2.kp) with
      | some q2 =>
        have hk1 : kpNumeric r1.kp = toLex (0, toLex (q1, "")) := by
          simp [kpNumeric, hp1]
        have hk2 : kpNumeric r2.kp = toLex (0, toLex (q2, "")) := by
          simp [kpNumeric, hp2]
        rw [hk1, hk2, Prod.Lex.le_iff] at h2
        have hq : q1 ≤ q2 := by
          rcases h2 with h2 | ⟨_, h3⟩
          · exact absurd h2 (lt_irrefl 0)
          · rw [Prod.Lex.le_iff] at h3
            rcases h3 with h3 | ⟨h3e, _⟩
            · exact le_of_lt h3
            · exact le_of_eq h3e
        exact Or.inl ⟨q1, q2, hp1, hp2, hq⟩
      | none =>
        refine Or.inr (Or.inl ⟨?_, hp2⟩)
        rw [show kpParsedQ r1 = pyFloatQ (stripKpChars r1.kp) from rfl, hp1]
        rfl
    | none =>
      cases hp2 : pyFloatQ (stripKpChars r2.kp) with
      | some q2 =>
        have hk1 : kpNumeric r1.kp = toLex (1, toLex ((0 : ℚ), r1.kp)) := by
          simp [kpNumeric, hp1]
        have hk2 : kpNumeric r2.kp = toLex (0, toLex (q2, "")) := by
          simp [kpNumeric, hp2]
        rw [hk1, hk2, Prod.Lex.le_iff] at h2
        rcases h2 with h2 | ⟨h2e, _⟩
        · exact absurd h2 (by omega)
        · exact absurd h2e (by omega)
      | none =>
        have hk1 : kpNumeric r1.kp = toLex (1, toLex ((0 : ℚ), r1.kp)) := by
          simp [kpNumeric, hp1]
        have hk2 : kpNumeric r2.kp = toLex (1, toLex ((0 : ℚ), r2.kp)) := by
          simp [kpNumeric, hp2]
        rw [hk1, hk2, Prod.Lex.le_iff] at h2
        have hkp : r1.kp ≤ r2.kp := by
          rcases h2 with h2 | ⟨_, h3⟩
          · exact absurd h2 (lt_irrefl 1)
          · rw [Prod.Lex.le_iff] at h3
            rcases h3 with h3 | ⟨_, h4⟩
            · exact absurd h3 (lt_irrefl (0 : ℚ))
            · exact h4
        exact Or.inr (Or.inr ⟨hp1, hp2, hkp⟩)

/-- C1: _rebuild_index builds _kp_order as a permutation of all row
indices which is sorted in the order the claim states: primarily by the
trimmed lowercased street string; within one street every row whose
KP text — stripped to the characters 0-9, dot and minus — parses as a
number precedes every row whose stripped text does not; two parsing rows
are ordered by numeric value and two non-parsing rows by their original
KP text. -/
theorem c1_rebuild_kp_order (rows : List Row) :
    (rebuildKpOrder rows).Perm (List.range rows.length) ∧
    (rebuildKpOrder rows).Pairwise (fun i j =>
      specRowLe (rows.getD i default) (rows.getD j default)) := by
  have hperm0 := List.perm_insertionSort keyIdxLe
    ((withIdx 0 rows).map (fun p => (sortKey p.2, p.1)))
  constructor
  · have h1 := hperm0.map Prod.snd
    have h2 : (((withIdx 0 rows).map
        (fun p => (sortKey p.2, p.1))).map Prod.snd) =
        (withIdx 0 rows).map Prod.fst := by
      rw [List.map_map]
      rfl
    have h3 : (withIdx 0 rows).map Prod.fst = List.range rows.length := by
      rw [withIdx_map_fst, List.range_eq_range']
    rw [h2, h3] at h1
    exact h1
  · have hsorted : List.Pairwise keyIdxLe (List.insertionSort keyIdxLe
        ((withIdx 0 rows).map (fun p => (sortKey p.2, p.1)))) :=
      List.sorted_insertionSort keyIdxLe _
    have helem : ∀ q ∈ List.insertionSort keyIdxLe
        ((withIdx 0 rows).map (fun p => (sortKey p.2, p.1))),
        q.1 = sortKey (rows.getD q.2 default) := by
      intro q hq
      have hq2 : q ∈ (withIdx 0 rows).map (fun p => (sortKey p.2, p.1)) :=
        hperm0.mem_iff.mp hq
      rcases List.mem_map.mp hq2 with ⟨p, hp, rfl⟩
      rcases mem_withIdx 0 rows p hp with ⟨_, _, hget⟩
      have hpd : rows.getD p.1 default = p.2 := by simpa using hget default
      show sortKey p.2 = sortKey (rows.getD p.1 default)
      rw [hpd]
    have hpair : (List.insertionSort keyIdxLe
        ((withIdx 0 rows).map (fun p => (sortKey p.2, p.1)))).Pairwise
        (fun a b => specRowLe (rows.getD a.2 default)
          (rows.getD b.2 default)) := by
      refine hsorted.imp_of_mem ?_
      intro a b ha hb hle
      apply sortKey_le_imp_specRowLe
      rw [← helem a ha, ← helem b hb]
      exact hle
    unfold rebuildKpOrder
    rw [List.pairwise_map]
    exact hpair

theorem digitsToNat_append_digit (xs : List Char) (c : Char) :
    digitsToNat (xs ++ [c]) = 10 * digitsToNat xs + (c.toNat - 48) := by
  unfold digitsToNat
  rw [List.foldl_append]
  rfl

theorem digitCh_isDigit : ∀ m, m < 10 → (digitCh m).isDigit = true := by
  decide

theorem digitCh_toNat : ∀ m, m < 10 → (digitCh m).toNat - 48 = m := by
  decide

theorem natDecimalAux_spec :
    ∀ (fuel n : ℕ), n < fuel →
      natDecimalAux fuel n ≠ [] ∧
      (∀ c ∈ natDecimalAux fuel n, c.isDigit = true) ∧
      digitsToNat (natDecimalAux fuel n) = n := by
  intro fuel
  induction fuel with
  | zero => intro n h; omega
  | succ f ih =>
    intro n h
    by_cases h10 : n < 10
    · rw [natDecimalAux, if_pos h10]
      refine ⟨by simp, ?_, ?_⟩
      · intro c hc
        rcases List.mem_singleton.mp hc with rfl
        exact digitCh_isDigit n h10
      · have : digitsToNat [digitCh n] = (digitCh n).toNat - 48 := by
          unfold digitsToNat
          simp
        rw [this, digitCh_toNat n h10]
    · have hdiv : n / 10 < f := by
        have h1 : n / 10 < n := Nat.div_lt_self (by omega) (by omega)
        omega
      rcases ih (n / 10) hdiv with ⟨hne, hdig, hval⟩
      rw [natDecimalAux, if_neg h10]
      have hmod : n % 10 < 10 := Nat.mod_lt _ (by omega)
      refine ⟨by simp, ?_, ?_⟩
      · intro c hc
        rcases List.mem_append.mp hc with hc | hc
        · exact hdig c hc
        · rcases List.mem_singleton.mp hc with rfl
          exact digitCh_isDigit _ hmod
      · rw [digitsToNat_append_digit, hval, digitCh_toNat _ hmod]
        omega

theorem natDecimal_spec (n : ℕ) :
    natDecimal n ≠ [] ∧ (∀ c ∈ natDecimal n, c.isDigit = true) ∧
      digitsToNat (natDecimal n) = n :=
  natDecimalAux_spec (n + 1) n (by omega)

theorem isDigit_not_special (c : Char) (h : c.isDigit = true) :
    isWsChar c = false ∧ c ≠ ',' ∧ c ≠ '=' := by
  refine ⟨?_, ?_, ?_⟩
  · cases hws : isWsChar c
    · rfl
    · exfalso
      simp only [isWsChar, Bool.or_eq_true, decide_eq_true_eq] at hws
      rcases hws with ((((rfl | rfl) | rfl) | rfl) | rfl) | rfl <;>
        exact absurd h (by decide)
  · intro rfl1
    rw [rfl1] at h
    exact absurd h (by decide)
  · intro rfl1
    rw [rfl1] at h
    exact absurd h (by decide)

theorem head_not_of_dropWhile_eq {p : Char → Bool} {c : Char} {t : List Char}
    (h : List.dropWhile p (c :: t) = c :: t) : p c = false := by
  by_cases hp : p c
  · rw [List.dropWhile_cons_of_pos hp] at h
    have h1 := congrArg List.length h
    have h2 := (List.dropWhile_sublist (l := t) p).length_le
    simp only [List.length_cons] at h1
    omega
  · simpa using hp

theorem pyStripL_nil : pyStripL [] = [] := rfl

theorem pyStripL_length_le (l : List Char) :
    (pyStripL l).length ≤ (l.dropWhile isWsChar).length := by
  unfold pyStripL
  rw [List.length_reverse]
  calc ((l.dropWhile isWsChar).reverse.dropWhile isWsChar).length
      ≤ (l.dropWhile isWsChar).reverse.length :=
        (List.dropWhile_sublist _).length_le
    _ = (l.dropWhile isWsChar).length := List.length_reverse _

theorem stripInv_dropWhile {l : List Char} (h : pyStripL l = l) :
    l.dropWhile isWsChar = l := by
  have h1 : (pyStripL l).length ≤ (l.dropWhile isWsChar).length :=
    pyStripL_length_le l
  have h2 : (l.dropWhile isWsChar).length ≤ l.length :=
    (List.dropWhile_sublist _).length_le
  rw [h] at h1
  exact (List.dropWhile_sublist _).eq_of_length (by omega)

theorem stripInv_head {c : Char} {t : List Char}
    (h : pyStripL (c :: t) = c :: t) : isWsChar c = false :=
  head_not_of_dropWhile_eq (stripInv_dropWhile h)

theorem stripInv_rev {l : List Char} (h : pyStripL l = l) :
    l.reverse.dropWhile isWsChar = l.reverse := by
  have hd := stripInv_dropWhile h
  have h2 : pyStripL l = (l.reverse.dropWhile isWsChar).reverse := by
    unfold pyStripL
    rw [hd]
  have hlen := congrArg List.length h2
  rw [h, List.length_reverse] at hlen
  refine (List.dropWhile_sublist _).eq_of_length ?_
  rw [← hlen, List.length_reverse]

theorem stripInv_last {c : Char} {t l : List Char} (h : pyStripL l = l)
    (hrev : l.reverse = c :: t) : isWsChar c = false := by
  have := stripInv_rev h
  rw [hrev] at this
  exact head_not_of_dropWhile_eq this

theorem pyStripL_eq_self {l : List Char}
    (hhead : ∀ c t, l = c :: t → isWsChar c = false)
    (hlast : ∀ c t, l.reverse = c :: t → isWsChar c = false) :
    pyStripL l = l := by
  cases hl : l with
  | nil => rfl
  | cons c t =>
    unfold pyStripL
    rw [List.dropWhile_cons_of_neg (by simp [hhead c t hl])]
    cases hrev : (c :: t).reverse with
    | nil =>
      exact absurd (congrArg List.length hrev) (by simp)
    | cons d s =>
      rw [List.dropWhile_cons_of_neg
        (by simp [hlast d s (by rw [hl]; exact hrev)]),
        ← hrev, List.reverse_reverse]

theorem pyStripL_cons_ws {c : Char} {l : List Char} (h : isWsChar c = true) :
    pyStripL (c :: l) = pyStripL l := by
  unfold pyStripL
  rw [List.dropWhile_cons_of_pos h]

theorem mem_pyStripL {c : Char} {l : List Char} (h : c ∈ pyStripL l) :
    c ∈ l := by
  unfold pyStripL at h
  rw [List.mem_reverse] at h
  have h1 := (List.dropWhile_sublist (l := (l.dropWhile isWsChar).reverse)
    isWsChar).subset h
  rw [List.mem_reverse] at h1
  exact (List.dropWhile_sublist (l := l) isWsChar).subset h1

theorem splitOnChar_ne_nil (sep : Char) : ∀ l, splitOnChar sep l ≠ [] := by
  intro l
  induction l with
  | nil => simp [splitOnChar]
  | cons c rest ih =>
    rw [splitOnChar]
    by_cases hc : c = sep
    · simp [hc]
    · rw [if_neg hc]
      cases h : splitOnChar sep rest with
      | nil => simp
      | cons a b => simp

theorem splitOnChar_no_sep (sep : Char) :
    ∀ l : List Char, sep ∉ l → splitOnChar sep l = [l] := by
  intro l
  induction l with
  | nil => intro _; rfl
  | cons c rest ih =>
    intro hmem
    rw [splitOnChar,
      if_neg (fun (h : c = sep) => hmem (h ▸ List.mem_cons_self c rest)),
      ih (fun h => hmem (List.mem_cons_of_mem c h))]

theorem splitOnChar_append (sep : Char) :
    ∀ (t rs : List Char), sep ∉ t →
      splitOnChar sep (t ++ sep :: rs) = t :: splitOnChar sep rs := by
  intro t
  induction t with
  | nil =>
    intro rs _
    simp [splitOnChar]
  | cons c t ih =>
    intro rs hmem
    rw [List.cons_append, splitOnChar,
      if_neg (fun (h : c = sep) => hmem (h ▸ List.mem_cons_self c t)),
      ih rs (fun h => hmem (List.mem_cons_of_mem c h))]

theorem parse_tokens_of_join :
    ∀ ts : List (List Char),
      (∀ t ∈ ts, t ≠ [] ∧ ',' ∉ t ∧ pyStripL t = t) →
      ((splitOnChar ',' (joinCommaSpace ts)).map pyStripL).filter
        (fun t => t ≠ []) = ts := by
  intro ts
  induction ts with
  | nil =>
    intro _
    simp [joinCommaSpace, splitOnChar, pyStripL_nil]
  | cons t rest ih =>
    intro hts
    rcases hts t (List.mem_cons_self t rest) with ⟨hne, hnc, hstrip⟩
    cases hrest : rest with
    | nil =>
      rw [joinCommaSpace, splitOnChar_no_sep ',' t hnc]
      simp [hstrip, hne]
    | cons r rest2 =>
      have hjoin : joinCommaSpace (t :: r :: rest2) =
          t ++ ',' :: ' ' :: joinCommaSpace (r :: rest2) := rfl
      rw [hjoin, splitOnChar_append ',' t _ hnc]
      have hco : ¬(' ' = ',') := by decide
      rw [splitOnChar, if_neg hco]
      cases hsplit : splitOnChar ',' (joinCommaSpace (r :: rest2)) with
      | nil => exact absurd hsplit (splitOnChar_ne_nil ',' _)
      | cons a b =>
        have hih := ih (fun u hu => hts u (List.mem_cons_of_mem t hu))
        rw [hrest] at hih
        rw [hsplit] at hih
        have hsp : pyStripL (' ' :: a) = pyStripL a :=
          pyStripL_cons_ws (by decide)
        rw [List.map_cons, List.map_cons, hstrip, hsp]
        rw [List.filter_cons, if_pos (by simpa using hne)]
        rw [List.map_cons] at hih
        rw [hih]

theorem matchEqNum_cons_ws {c : Char} {l : List Char}
    (h : isWsChar c = true) : matchEqNum (c :: l) = matchEqNum l := by
  unfold matchEqNum
  rw [List.dropWhile_cons_of_pos h]

theorem matchEqNum_cons_not_eq {c : Char} {l : List Char}
    (hws : isWsChar c = false) (hne : c ≠ '=') :
    matchEqNum (c :: l) = none := by
  unfold matchEqNum
  rw [List.dropWhile_cons_of_neg (by simp [hws])]
  split
  · next r heq =>
    rw [List.cons.injEq] at heq
    exact absurd heq.1 hne
  · rfl

theorem matchEqNum_no_eq {l : List Char} (h : '=' ∉ l) :
    matchEqNum l = none := by
  unfold matchEqNum
  split
  · next r heq =>
    exfalso
    apply h
    have : '=' ∈ l.dropWhile isWsChar := by
      rw [heq]
      exact List.mem_cons_self _ _
    exact (List.dropWhile_sublist _).subset this
  · rfl

theorem takeWhile_of_all {p : Char → Bool} :
    ∀ l : List Char, (∀ c ∈ l, p c = true) → l.takeWhile p = l := by
  intro l
  induction l with
  | nil => intro _; rfl
  | cons c t ih =>
    intro h
    rw [List.takeWhile_cons_of_pos (h c (List.mem_cons_self c t)),
      ih (fun d hd => h d (List.mem_cons_of_mem c hd))]

theorem dropWhile_of_all {p : Char → Bool} :
    ∀ l : List Char, (∀ c ∈ l, p c = true) → l.dropWhile p = [] := by
  intro l
  induction l with
  | nil => intro _; rfl
  | cons c t ih =>
    intro h
    rw [List.dropWhile_cons_of_pos (h c (List.mem_cons_self c t)),
      ih (fun d hd => h d (List.mem_cons_of_mem c hd))]

theorem matchEqNum_eq_digits (ds : List Char) (hne : ds ≠ [])
    (hdig : ∀ c ∈ ds, c.isDigit = true) :
    matchEqNum ('=' :: ds) = some (digitsToNat ds) := by
  unfold matchEqNum
  rw [List.dropWhile_cons_of_neg (by decide)]
  have hd : ds.dropWhile isWsChar = ds := by
    cases ds with
    | nil => rfl
    | cons c t =>
      rw [List.dropWhile_cons_of_neg]
      simp only [Bool.not_eq_true]
      exact (isDigit_not_special c (hdig c (List.mem_cons_self c t))).1
  simp only [hd]
  rw [takeWhile_of_all ds hdig, dropWhile_of_all ds hdig]
  rw [if_pos ⟨hne, rfl⟩]

theorem mvSplit_no_eq : ∀ l : List Char, '=' ∉ l → '\n' ∉ l →
    mvSplit l = some (l, none) := by
  intro l
  induction l with
  | nil => intro _ _; rfl
  | cons c rest ih =>
    intro hmem hnl
    have hdol : ¬ dollarAt (c :: rest) = true := by
      intro h
      simp only [dollarAt, Bool.or_eq_true, decide_eq_true_eq] at h
      rcases h with h | h
      · exact absurd h (by simp)
      · rw [h] at hnl
        exact hnl (List.mem_cons_self _ _)
    rw [mvSplit, matchEqNum_no_eq hmem]
    dsimp only
    rw [if_neg hdol,
      if_neg (fun (h : c = '\n') => hnl (h ▸ List.mem_cons_self c rest)),
      ih (fun h => hmem (List.mem_cons_of_mem c h))
        (fun h => hnl (List.mem_cons_of_mem c h))]
    rfl

theorem mvSplit_no_eq_cnt :
    ∀ (l : List Char), '=' ∉ l → ∀ (lab : List Char) (cnt : Option ℕ),
      mvSplit l = some (lab, cnt) → cnt = none := by
  intro l
  induction l with
  | nil =>
    intro _ lab cnt h
    have h2 := Option.some.inj h
    exact (congrArg Prod.snd h2).symm
  | cons c rest ih =>
    intro hmem lab cnt h
    rw [mvSplit, matchEqNum_no_eq hmem] at h
    dsimp only at h
    by_cases hd : dollarAt (c :: rest) = true
    · rw [if_pos hd] at h
      have h2 := Option.some.inj h
      exact (congrArg Prod.snd h2).symm
    · rw [if_neg hd] at h
      by_cases hc : c = '\n'
      · rw [if_pos hc] at h
        cases h
      · rw [if_neg hc] at h
        cases hrec : mvSplit rest with
        | none =>
          rw [hrec] at h
          cases h
        | some pr =>
          rw [hrec] at h
          have h2 := Option.some.inj h
          have hsnd : cnt = pr.2 := (congrArg Prod.snd h2).symm
          rw [hsnd]
          exact ih (fun hm => hmem (List.mem_cons_of_mem c hm)) pr.1 pr.2
            (by rw [hrec])

theorem matchEqNum_none_of_mvSplit {l : List Char} {lab : List Char}
    {cnt : Option ℕ} (h : mvSplit l = some (lab, cnt)) (hne : lab ≠ []) :
    matchEqNum l = none := by
  cases l with
  | nil => rfl
  | cons c rest =>
    cases hm : matchEqNum (c :: rest) with
    | some n =>
      rw [mvSplit, hm] at h
      dsimp only at h
      have h2 := Option.some.inj h
      exact absurd (congrArg Prod.fst h2).symm hne
    | none => rfl

theorem mvSplit_label_digits (ds : List Char) (hned : ds ≠ [])
    (hdig : ∀ c ∈ ds, c.isDigit = true) :
    ∀ lab : List Char, lab ≠ [] → '=' ∉ lab → '\n' ∉ lab →
      (∀ c t, lab.reverse = c :: t → isWsChar c = false) →
      mvSplit (lab ++ '=' :: ds) = some (lab, some (digitsToNat ds)) := by
  intro lab
  induction lab with
  | nil => intro h; cases h rfl
  | cons c rest ih =>
    intro _ hnotin hnl hlast
    have hcne : c ≠ '=' := fun h => hnotin (h ▸ List.mem_cons_self c rest)
    have hcnl : c ≠ '\n' := fun h => hnl (h ▸ List.mem_cons_self c rest)
    have hdol : ¬ dollarAt (c :: (rest ++ '=' :: ds)) = true := by
      intro h
      simp only [dollarAt, Bool.or_eq_true, decide_eq_true_eq] at h
      rcases h with h | h
      · exact absurd h (by simp)
      · have hlen := congrArg List.length h
        simp only [List.length_cons, List.length_append,
          List.length_nil] at hlen
        omega
    by_cases hrne : rest = []
    · subst hrne
      have hcws : isWsChar c = false := hlast c [] (by simp)
      rw [List.cons_append, mvSplit, matchEqNum_cons_not_eq hcws hcne]
      dsimp only [List.nil_append]
      simp only [List.nil_append] at hdol
      rw [if_neg hdol, if_neg hcnl, mvSplit,
        matchEqNum_eq_digits ds hned hdig]
      rfl
    · have hih : mvSplit (rest ++ '=' :: ds) =
          some (rest, some (digitsToNat ds)) := by
        apply ih hrne (fun h => hnotin (List.mem_cons_of_mem c h))
          (fun h => hnl (List.mem_cons_of_mem c h))
        intro c1 t1 hr1
        apply hlast c1 (t1 ++ [c])
        rw [List.reverse_cons, hr1, List.cons_append]
      have hm : matchEqNum (c :: (rest ++ '=' :: ds)) = none := by
        by_cases hcw : isWsChar c = true
        · rw [matchEqNum_cons_ws hcw]
          exact matchEqNum_none_of_mvSplit hih hrne
        · exact matchEqNum_cons_not_eq (by simpa using hcw) hcne
      rw [List.cons_append, mvSplit, hm]
      dsimp only
      rw [if_neg hdol, if_neg hcnl, hih]
      rfl

theorem string_eq_empty_of_toList {s : String} (h : s.toList = []) :
    s = "" := by
  have hmk : String.mk s.toList = s := by cases s; rfl
  rw [← hmk, h]

theorem mem_dictSetN {m : List (String × ℕ)} {k : String} {v : ℕ}
    {p : String × ℕ} (h : p ∈ dictSetN m k v) : p ∈ m ∨ p.2 = v := by
  unfold dictSetN at h
  by_cases hs : (List.lookup k m).isSome
  · rw [if_pos hs] at h
    rcases List.mem_map.mp h with ⟨q, hq, rfl⟩
    by_cases hqk : q.1 = k
    · rw [if_pos hqk]
      exact Or.inr rfl
    · rw [if_neg hqk]
      exact Or.inl hq
  · rw [if_neg hs] at h
    rcases List.mem_append.mp h with h | h
    · exact Or.inl h
    · rcases List.mem_singleton.mp h with rfl
      exact Or.inr rfl

theorem parse_counts_aux :
    ∀ (toks : List (List Char)) (acc : List (String × ℕ)),
      (∀ p ∈ acc, 1 ≤ p.2) → ∀ p ∈ toks.foldl parseMvStep acc, 1 ≤ p.2 := by
  intro toks
  induction toks with
  | nil =>
    intro acc hacc p hp
    rw [List.foldl_nil] at hp
    exact hacc p hp
  | cons t rest ih =>
    intro acc hacc p hp
    rw [List.foldl_cons] at hp
    refine ih (parseMvStep acc t) ?_ p hp
    intro q hq
    unfold parseMvStep at hq
    cases hm : mvSplit t with
    | none =>
      rw [hm] at hq
      exact hacc q hq
    | some pr =>
      rw [hm] at hq
      dsimp only at hq
      by_cases hl : pyStripL pr.1 = []
      · rw [if_pos hl] at hq
        exact hacc q hq
      · rw [if_neg hl] at hq
        rcases mem_dictSetN hq with h | h
        · exact hacc q h
        · rw [h]
          exact le_max_left 1 _

theorem foldl_parse_fresh :
    ∀ (sel acc : List (String × ℕ)),
      (∀ p ∈ sel, labelOk p.1 ∧ 1 ≤ p.2 ∧ p.2 ≤ 999) →
      (sel.map Prod.fst).Nodup →
      (∀ p ∈ sel, List.lookup p.1 acc = none) →
      (sel.map (fun p => p.1.toList ++ '=' :: natDecimal p.2)).foldl
        parseMvStep acc = acc ++ sel := by
  intro sel
  induction sel with
  | nil =>
    intro acc _ _ _
    simp
  | cons p rest ih =>
    rcases p with ⟨lbl, cnt⟩
    intro acc hsel hnd hfresh
    rcases hsel (lbl, cnt) (List.mem_cons_self _ rest) with
      ⟨⟨hne, hstrip, _, hneq, hnlb⟩, hge, _⟩
    rcases natDecimal_spec cnt with ⟨hdne, hddig, hdval⟩
    have hlistne : lbl.toList ≠ [] :=
      fun h => hne (string_eq_empty_of_toList h)
    have htok : parseMvStep acc (lbl.toList ++ '=' :: natDecimal cnt) =
        acc ++ [(lbl, cnt)] := by
      unfold parseMvStep
      rw [mvSplit_label_digits (natDecimal cnt) hdne hddig lbl.toList
        hlistne hneq hnlb (fun c t h => stripInv_last hstrip h)]
      dsimp only
      rw [hstrip, if_neg hlistne, hdval]
      have hmk : String.mk lbl.toList = lbl := by cases lbl; rfl
      rw [hmk]
      have hmax : max 1 ((some cnt).getD 1) = cnt := by
        rw [show (some cnt).getD 1 = cnt from rfl]
        omega
      rw [hmax]
      unfold dictSetN
      rw [hfresh (lbl, cnt) (List.mem_cons_self _ rest)]
      rfl
    rw [List.map_cons, List.foldl_cons, htok]
    rw [ih (acc ++ [(lbl, cnt)])
      (fun q hq => hsel q (List.mem_cons_of_mem _ hq))
      (by
        rw [List.map_cons, List.nodup_cons] at hnd
        exact hnd.2)
      (by
        intro q hq
        rw [lookup_append_single, hfresh q (List.mem_cons_of_mem _ hq)]
        have hqp : ¬(q.1 == lbl) = true := by
          simp only [beq_iff_eq]
          intro he
          rw [List.map_cons, List.nodup_cons] at hnd
          exact hnd.1 (he ▸ List.mem_map.mpr ⟨q, hq, rfl⟩)
        simp [hqp])]
    rw [List.append_assoc]
    rfl

/-- C5 (amended): for selections of distinct labels that are non-empty,
contain neither a comma nor an equals sign nor a newline, and carry no
leading or trailing whitespace, with counts in 1..999, _parse_multivalue
inverts _collect_values exactly; moreover a token without an = sign
parses with count 1 or is skipped, and every parsed count is at least
1. -/
theorem c5_multivalue_roundtrip (sel : List (String × ℕ))
    (hsel : ∀ p ∈ sel, labelOk p.1 ∧ 1 ≤ p.2 ∧ p.2 ≤ 999)
    (hnd : (sel.map Prod.fst).Nodup) :
    parseMultivalue (collectValue sel) = sel ∧
    (∀ t : String, '=' ∉ t.toList → ',' ∉ t.toList →
      ∀ p ∈ parseMultivalue t, p.2 = 1) ∧
    (∀ text : String, ∀ p ∈ parseMultivalue text, 1 ≤ p.2) := by
  refine ⟨?_, ?_, ?_⟩
  · unfold parseMultivalue collectValue
    have hmap : sel.map (fun p =>
        pyStripL p.1.toList ++ '=' :: natDecimal (max 1 p.2)) =
        sel.map (fun p => p.1.toList ++ '=' :: natDecimal p.2) := by
      apply List.map_congr_left
      intro p hp
      rcases hsel p hp with ⟨⟨_, hstrip, _, _, _⟩, hge, _⟩
      rw [hstrip, show max 1 p.2 = p.2 from by omega]
    rw [show (String.mk (joinCommaSpace (sel.map (fun p =>
        pyStripL p.1.toList ++ '=' :: natDecimal (max 1 p.2))))).toList =
        joinCommaSpace (sel.map (fun p =>
        pyStripL p.1.toList ++ '=' :: natDecimal (max 1 p.2))) from rfl]
    rw [hmap, parse_tokens_of_join]
    · exact foldl_parse_fresh sel [] hsel hnd (fun p _ => rfl)
    · intro t ht
      rcases List.mem_map.mp ht with ⟨p, hp, rfl⟩
      rcases hsel p hp with ⟨⟨hne, hstrip, hnc, hneq, _⟩, _, _⟩
      rcases natDecimal_spec p.2 with ⟨hdne, hddig, _⟩
      have hlistne : p.1.toList ≠ [] :=
        fun h => hne (string_eq_empty_of_toList h)
      refine ⟨by simp, ?_, ?_⟩
      · intro hmem
        rcases List.mem_append.mp hmem with h | h
        · exact hnc h
        · rcases List.mem_cons.mp h with h | h
          · exact absurd h (by decide)
          · exact absurd (hddig ',' h) (by decide)
      · apply pyStripL_eq_self
        · intro c t' hct
          cases hl : p.1.toList with
          | nil => exact absurd hl hlistne
          | cons c0 t0 =>
            rw [hl, List.cons_append] at hct
            have hc0 : c = c0 := by
              rw [List.cons.injEq] at hct
              exact hct.1.symm
            rw [hc0]
            exact stripInv_head (by rw [← hl]; exact hstrip)
        · intro c t' hrev
          rw [List.reverse_append, List.reverse_cons, List.append_assoc]
            at hrev
          cases hds : (natDecimal p.2).reverse with
          | nil =>
            exact absurd (by simpa using congrArg List.length hds) hdne
          | cons dc dt =>
            rw [hds, List.cons_append] at hrev
            have hcd : c = dc := by
              rw [List.cons.injEq] at hrev
              exact hrev.1.symm
            have hdcm : dc ∈ natDecimal p.2 := by
              rw [← List.mem_reverse, hds]
              exact List.mem_cons_self _ _
            rw [hcd]
            exact (isDigit_not_special dc (hddig dc hdcm)).1
  · intro t hneq hnc p hp
    unfold parseMultivalue at hp
    rw [splitOnChar_no_sep ',' t.toList hnc] at hp
    by_cases hse : pyStripL t.toList = []
    · simp only [List.map_cons, List.map_nil, hse] at hp
      simp at hp
    · simp only [List.map_cons, List.map_nil, List.filter_cons,
        List.filter_nil, if_pos (by simpa using hse : decide
          (¬pyStripL t.toList = []) = true)] at hp
      rw [List.foldl_cons, List.foldl_nil] at hp
      unfold parseMvStep at hp
      cases hm : mvSplit (pyStripL t.toList) with
      | none =>
        rw [hm] at hp
        cases hp
      | some pr =>
        rw [hm] at hp
        dsimp only at hp
        have hcnt : pr.2 = none :=
          mvSplit_no_eq_cnt (pyStripL t.toList)
            (fun h => hneq (mem_pyStripL h)) pr.1 pr.2 (by rw [hm])
        by_cases hl2 : pyStripL pr.1 = []
        · rw [if_pos hl2] at hp
          cases hp
        · rw [if_neg hl2] at hp
          unfold dictSetN at hp
          rw [show List.lookup (String.mk (pyStripL pr.1))
            ([] : List (String × ℕ)) = none from rfl] at hp
          simp only [Option.isSome_none, Bool.false_eq_true, if_false,
            List.nil_append] at hp
          rcases List.mem_singleton.mp hp with rfl
          simp [hcnt]
  · intro text p hp
    unfold parseMultivalue at hp
    exact parse_counts_aux _ [] (fun q hq => by cases hq) p hp

/-- C5 counterexample: the label " a" is non-empty, contains no comma and
no equals sign, and its count 1 lies in 1..999, yet the round trip
returns [("a", 1)] ≠ [(" a", 1)] because _collect_values strips the label
before encoding it. Likewise the newline label "a\nb" meets the claim's
conditions but its token fails the _MV_RE match (the lazy `.` cannot
cross a newline) and is skipped, so the parse returns nothing at all. -/
theorem c5_counterexample_padded_label :
    (" a" : String) ≠ "" ∧ ',' ∉ (" a" : String).toList ∧
    '=' ∉ (" a" : String).toList ∧
    parseMultivalue (collectValue [(" a", 1)]) = [("a", 1)] ∧
    [(("a" : String), 1)] ≠ [((" a" : String), 1)] ∧
    ("a\nb" : String) ≠ "" ∧ ',' ∉ ("a\nb" : String).toList ∧
    '=' ∉ ("a\nb" : String).toList ∧
    pyStripL ("a\nb" : String).toList = ("a\nb" : String).toList ∧
    parseMultivalue (collectValue [("a\nb", 1)]) = [] := by
  decide

/-- Witness for C5: the round trip is the identity on the concrete
selection [("stop", 2), ("yield", 1)]. -/
theorem c5_multivalue_roundtrip_witness :
    parseMultivalue (collectValue [("stop", 2), ("yield", 1)]) =
      [("stop", 2), ("yield", 1)] :=
  (c5_multivalue_roundtrip [("stop", 2), ("yield", 1)] (by decide)
    (by decide)).1

end QGISTool
